import Mathlib

/-!
# BumbleBase: verification of the specification claims against the source

Shallow embedding of the BumbleBase database engine (Go) in Lean 4.
Each section embeds one subsystem, translated from the corresponding
source file; theorems at the end settle the claims.

Machine integers: keys, values and page numbers are Go `int64`.  All
arithmetic performed on them in the embedded code paths stays far from
the 2^63 boundary (depths, list indices, page numbers), so they are
modelled as `Int`/`Nat` without explicit wrap-around, as noted per
definition where it matters.
-/

set_option maxHeartbeats 1000000
set_option maxRecDepth 100000

namespace BumbleBase

/-! ## Deadlock graph — `pkg/concurrency/deadlock.go`

Transactions are identified by ids (the Go code compares `*Transaction`
pointers; distinct transactions are distinct pointers, so ids model
pointer identity). -/

abbrev TxId := Nat

/-- `Graph` from deadlock.go:9 — a list of waits-for edges `(from, to)`. -/
structure Graph where
  edges : List (TxId × TxId)
deriving Repr, DecidableEq

/-- `Graph.AddEdge` (deadlock.go:46): append an edge. -/
def Graph.AddEdge (g : Graph) (f t : TxId) : Graph :=
  { edges := g.edges ++ [(f, t)] }

/-- `removeEdge` (deadlock.go:95): remove index `i` by swapping in the last
element and truncating. -/
def removeEdgeAt (l : List (TxId × TxId)) (i : Nat) : List (TxId × TxId) :=
  (l.set i (l.getLastD (0, 0))).dropLast

/-- `Graph.RemoveEdge` (deadlock.go:53): remove the first matching copy of
the edge; error if absent. -/
def Graph.RemoveEdge (g : Graph) (f t : TxId) : Except String Graph :=
  match g.edges.findIdx? (fun e => e = (f, t)) with
  | some i => .ok { edges := removeEdgeAt g.edges i }
  | none => .error "edge not found"

/-- `dfs` (deadlock.go:76-92), translated exactly: the loop takes the FIRST
edge leaving `srcV`; if its target is in `seen` it reports a cycle and
otherwise it recurses on that single target (a `return` inside the loop),
never exploring the remaining out-edges.  The Go recursion has no
structural measure, so the embedding carries fuel; the deterministic walk
appends one vertex to `seen` per step and stops at the first repeat, so
depth `edges.length + 2` is never exhausted (the concrete evaluations
below stay far below it). -/
def dfs (g : Graph) : Nat → TxId → List TxId → Bool
  | 0, _, _ => false
  | fuel + 1, srcV, seen =>
    match g.edges.find? (fun e => e.1 = srcV) with
    | some e => if seen.contains e.2 then true else dfs g fuel e.2 (seen ++ [srcV])
    | none => false

/-- `Graph.DetectCycle` (deadlock.go:67): start a dfs from the origin of the
first edge with an empty `seen` stack. -/
def Graph.DetectCycle (g : Graph) : Bool :=
  match g.edges with
  | [] => false
  | e :: _ => dfs g (g.edges.length + 2) e.1 []

/-- A directed cycle exists in the digraph induced by the edge multiset:
some edge `v → w` together with a (possibly empty) directed path back
from `w` to `v`. -/
def HasCycle (g : Graph) : Prop :=
  ∃ v w, (v, w) ∈ g.edges ∧ Relation.ReflTransGen (fun a b => (a, b) ∈ g.edges) w v

/-! ## Lock manager — `pkg/concurrency/lock.go` -/

/-- `LockType` (lock.go:9). -/
inductive LockTy where
  | rLock
  | wLock
deriving Repr, DecidableEq

/-- `Resource` (lock.go:17): `(tableName, resourceKey)`. -/
structure LMResource where
  tableName : String
  resourceKey : Int
deriving Repr, DecidableEq

/-- `LockManager` (lock.go:33).  The map `Resource → *sync.RWMutex` is
modelled by the list of resources that have an allocated lock (the claims
concern allocation and the manager mutex, not the reader/writer state of
the individual locks).  `lmMtxHeld` tracks whether the manager's map
mutex `lmMtx` is held; callers start operations with it free. -/
structure LockManager where
  locks : List LMResource
  lmMtxHeld : Bool
deriving Repr, DecidableEq

/-- `LockManager.Lock` (lock.go:46-63): acquire `lmMtx`, lazily allocate the
resource's lock, release `lmMtx`, then take the RW lock (the possible
blocking on that RW lock is not part of the state).  The returned state's
`lmMtxHeld` records whether the function returns still holding `lmMtx`. -/
def LockManager.Lock (lm : LockManager) (r : LMResource) (_lType : LockTy) :
    Option String × LockManager :=
  -- lm.lmMtx.Lock()
  let lm₁ : LockManager := { lm with lmMtxHeld := true }
  -- lazily allocate
  let lm₂ : LockManager :=
    if r ∈ lm₁.locks then lm₁ else { lm₁ with locks := lm₁.locks ++ [r] }
  -- lm.lmMtx.Unlock()
  let lm₃ : LockManager := { lm₂ with lmMtxHeld := false }
  -- lock.RLock() / lock.Lock() — no effect on the manager state
  (none, lm₃)

/-- `LockManager.Unlock` (lock.go:66-82): acquire `lmMtx`; if the resource
was never locked, `return` the error immediately — the Go code reaches
`return` at line 71 BEFORE the `lm.lmMtx.Unlock()` at line 73, so the
returned state still holds `lmMtx`. -/
def LockManager.Unlock (lm : LockManager) (r : LMResource) (_lType : LockTy) :
    Option String × LockManager :=
  -- lm.lmMtx.Lock()
  let lm₁ : LockManager := { lm with lmMtxHeld := true }
  if r ∈ lm₁.locks then
    -- lm.lmMtx.Unlock(), then the RW unlock
    (none, { lm₁ with lmMtxHeld := false })
  else
    -- early return: lmMtx is never released on this path
    (some "tried to unlock nonexistent resource", lm₁)

/-! ## Transaction manager — `pkg/concurrency/transaction.go` -/

/-- A transaction's held resources (`Transaction.resources`), as an
association list `Resource → LockType`. -/
abbrev TxResources := List (LMResource × LockTy)

/-- `TransactionManager` (transaction.go:49): the transaction table, the
waits-for graph and the lock manager. -/
structure TransactionManager where
  transactions : List (TxId × TxResources)
  pGraph : Graph
  lm : LockManager
deriving Repr, DecidableEq

/-- `discoverTransactions` (transaction.go:185): ids of the other active
transactions holding `r` where at least one side is a write lock. -/
def TransactionManager.discoverTransactions (tm : TransactionManager)
    (r : LMResource) (lType : LockTy) : List TxId :=
  (tm.transactions.filter
    (fun t => t.2.any (fun s => s.1 = r ∧ (s.2 = LockTy.wLock ∨ lType = LockTy.wLock)))).map
    (·.1)

/-- The deferred `RemoveEdge` calls of `TransactionManager.Lock`
(transaction.go:114): defers run last-in-first-out, each removing one
matching copy. -/
def removeEdgesDeferred (g : Graph) (t : TxId) : List TxId → Graph
  | [] => g
  | ct :: rest =>
    let g' := removeEdgesDeferred g t rest
    match g'.RemoveEdge t ct with
    | .ok g'' => g''
    | .error _ => g'

/-- `TransactionManager.Lock` (transaction.go:92-132).  If the client has no
transaction it returns `nil` immediately (transaction.go:94-97) without
touching the lock manager, the transaction table or the graph.  Otherwise:
reentrant success / upgrade error for a held resource; else add waits-for
edges to the conflict set, run the cycle check, remove the edges again (the
deferred removals fire on every return path), and on no cycle take the lock
and record it. -/
def TransactionManager.Lock (tm : TransactionManager) (clientId : TxId)
    (tableName : String) (resourceKey : Int) (lType : LockTy) :
    Option String × TransactionManager :=
  match tm.transactions.lookup clientId with
  | none => (none, tm)
  | some res =>
    let r : LMResource := ⟨tableName, resourceKey⟩
    match res.lookup r with
    | some oldLockType =>
      if oldLockType = lType ∨ (oldLockType = LockTy.wLock ∧ lType = LockTy.rLock) then
        (none, tm)
      else
        (some "cannot upgrade read lock to write lock", tm)
    | none =>
      let conflictT := tm.discoverTransactions r lType
      let gAdded := conflictT.foldl (fun g ct => g.AddEdge clientId ct) tm.pGraph
      let hasCycle := gAdded.DetectCycle
      let gFinal := removeEdgesDeferred gAdded clientId conflictT
      if hasCycle then
        (some "pGraph has cycle", { tm with pGraph := gFinal })
      else
        let (lockErr, lm') := tm.lm.Lock r lType
        let trans' := tm.transactions.map
          (fun t => if t.1 = clientId then (t.1, t.2 ++ [(r, lType)]) else t)
        (lockErr, { tm with pGraph := gFinal, lm := lm', transactions := trans' })

/-- `TransactionManager.Unlock` (transaction.go:135-159).  If the client has
no transaction it returns `nil` immediately (transaction.go:138-141);
otherwise it deletes the resource from the transaction's map and releases
it in the lock manager (the commented-out mode validation is absent from
the source, so none is modelled). -/
def TransactionManager.Unlock (tm : TransactionManager) (clientId : TxId)
    (tableName : String) (resourceKey : Int) (lType : LockTy) :
    Option String × TransactionManager :=
  match tm.transactions.lookup clientId with
  | none => (none, tm)
  | some _ =>
    let r : LMResource := ⟨tableName, resourceKey⟩
    let trans' := tm.transactions.map
      (fun t => if t.1 = clientId then (t.1, t.2.filter (fun s => ¬s.1 = r)) else t)
    let (err, lm') := tm.lm.Unlock r lType
    (err, { tm with transactions := trans', lm := lm' })

/-! ## Recovery forward pass — `pkg/recovery/recovery.go` with the
`pkg/db` command handlers (`src/pkg/utils/structs.go`, package `db`)

`RecoveryManager.Redo` rebuilds a textual payload and shells out to
`db.HandleCreateTable`, `db.HandleInsert`, `db.HandleUpdate` and
`db.HandleDelete`.  The payloads `Redo` builds always parse back into the
logged fields, so the handlers are embedded at the parsed-payload level.
A database is a map from table name to its index type and entries (the
flat view of either index). -/

/-- `IndexType` (structs.go): the two index kinds `HandleCreateTable`
accepts. -/
inductive IndexTypeM where
  | btree
  | hash
deriving Repr, DecidableEq

/-- One table: its index type and its stored entries. -/
structure TableM where
  kind : IndexTypeM
  data : List (Int × Int)
deriving Repr, DecidableEq

/-- The database: tables by name (`Database.tables`, structs.go:55). -/
abbrev DBState := List (String × TableM)

/-- Overwrite one table's contents — the net effect of a handler mutating
the index that `Database.GetTable` (structs.go:134-160) returned. -/
def dbSetTable (d : DBState) (tbl : String) (t : TableM) : DBState :=
  d.map (fun p => if p.1 = tbl then (p.1, t) else p)

/-- `HashBucket.Update` (part_001:63): overwrite the value at the first
matching index; also the net effect of the B+ tree update at its leaf
(`updateValueAt` at the found position, entry.go:122-124). -/
def bucketUpdateEntries (es : List (Int × Int)) (k v : Int) : List (Int × Int) :=
  match es with
  | [] => []
  | e :: rest => if e.1 = k then (k, v) :: rest else e :: bucketUpdateEntries rest k v

/-- `HashBucket.Delete` (part_001:83): drop the first matching index,
shifting the rest left; also the net effect of the B+ tree delete at its
leaf (entry.go:154-172). -/
def bucketDeleteEntries (es : List (Int × Int)) (k : Int) : List (Int × Int) :=
  match es with
  | [] => []
  | e :: rest => if e.1 = k then rest else e :: bucketDeleteEntries rest k

/-- `db.HandleInsert` (structs.go:258-286): look the table up, report
"key already in table" when `table.Find` already sees the key
(structs.go:277-280), else `table.Insert` places the new entry (appended
in the flat view). -/
def dbHandleInsert (d : DBState) (tbl : String) (k v : Int) : Option DBState :=
  match d.lookup tbl with
  | none => none
  | some t =>
    if t.data.any (fun e => e.1 = k) then none
    else some (dbSetTable d tbl ⟨t.kind, t.data ++ [(k, v)]⟩)

/-- `db.HandleUpdate` (structs.go:289-313): `table.Update` — both index
types fail on a missing key (entry.go:131-134, table.go:185-198) and
overwrite the first matching entry otherwise. -/
def dbHandleUpdate (d : DBState) (tbl : String) (k v : Int) : Option DBState :=
  match d.lookup tbl with
  | none => none
  | some t =>
    if t.data.any (fun e => e.1 = k) then
      some (dbSetTable d tbl ⟨t.kind, bucketUpdateEntries t.data k v⟩)
    else none

/-- `db.HandleDelete` (structs.go:316-337): `table.Delete` — the B+ tree
delete silently ignores a missing key (cursor.go:333-348, entry.go:154-160),
while the hash delete returns the bucket's "key not found, delete aborted"
error (part_001:83-96, table.go:199-214), which the handler propagates. -/
def dbHandleDelete (d : DBState) (tbl : String) (k : Int) : Option DBState :=
  match d.lookup tbl with
  | none => none
  | some t =>
    match t.kind with
    | .btree => some (dbSetTable d tbl ⟨t.kind, bucketDeleteEntries t.data k⟩)
    | .hash =>
      if t.data.any (fun e => e.1 = k) then
        some (dbSetTable d tbl ⟨t.kind, bucketDeleteEntries t.data k⟩)
      else none

/-- `db.HandleCreateTable` (structs.go:206-229) with `Database.createTable`
(structs.go:103-131), at the parsed-payload level: the type field must be
`btree` or `hash`, the name must contain no non-word character (the
`\W` regexp check), and the table must not already exist. -/
def dbHandleCreateTable (d : DBState) (tblType name : String) : Option DBState :=
  if ¬(tblType = "btree" ∨ tblType = "hash") then none
  else if ¬(name.toList.all (fun c => c.isAlphanum ∨ c = '_')) then none
  else if (d.lookup name).isSome then none
  else some (d ++ [(name, ⟨if tblType = "btree" then .btree else .hash, []⟩)])

/-- `Action` (recovery log records). -/
inductive ActionM where
  | insert
  | update
  | delete
deriving Repr, DecidableEq

/-- The log records `Redo` handles: `tableLog` and `editLog` (the other
kinds make `Redo` return the "can only redo edit logs" error). -/
inductive LogM where
  | table (tblType : String) (tblName : String)
  | edit (txId : TxId) (tablename : String) (action : ActionM) (key oldval newval : Int)
  | start (txId : TxId)
  | commit (txId : TxId)
  | checkpoint (ids : List TxId)
deriving Repr, DecidableEq

/-- `RecoveryManager.Redo` (recovery.go:108-151): re-apply a `Table` or
`Edit` record.  Insert falls back to update when the insert fails, update
falls back to insert when the update fails, delete propagates the
handler's result unchanged. -/
def Redo (d : DBState) (log : LogM) : Option DBState :=
  match log with
  | .table tblType tblName => dbHandleCreateTable d tblType tblName
  | .edit _ tablename action key _ newval =>
    match action with
    | .insert =>
      match dbHandleInsert d tablename key newval with
      | some d' => some d'
      | none => dbHandleUpdate d tablename key newval
    | .update =>
      match dbHandleUpdate d tablename key newval with
      | some d' => some d'
      | none => dbHandleInsert d tablename key newval
    | .delete => dbHandleDelete d tablename key
  | _ => none

/-! ## Pager / buffer pool — `src/unnamed/part_007` (package pager) and
`pkg/pager/page.go`

Frames are modelled by their index into a frame array; the three intrusive
lists hold frame indices, the page table maps a page number to the frame
index caching it (the Go `*list.Link` indirection carries no extra
information at this level).  Disk contents are not modelled; instead the
state carries `flushed`, the log of page numbers written out by
`FlushPage`, which makes "flushed before eviction" observable. -/

/-- `Page` (page.go:13), the fields the pager logic reads and writes. -/
structure PageM where
  pagenum : Int
  pinCount : Int
  dirty : Bool
deriving Repr, DecidableEq

/-- `Pager` (part_007:25). -/
structure PagerM where
  hasFile : Bool
  nPages : Int
  frames : List PageM
  freeList : List Nat
  unpinnedList : List Nat
  pinnedList : List Nat
  pageTable : List (Int × Nat)
  flushed : List Int
deriving Repr, DecidableEq

/-- `NOPAGE` (page.go:10). -/
def NOPAGE : Int := -1

/-- `NUMPAGES` = `config.NumPages` (part_000). -/
def NUMPAGES : Nat := 32

/-- `NewPager` (part_007:36): all frames on the free list with pagenum `-1`. -/
def NewPager : PagerM :=
  { hasFile := false
    nPages := 0
    frames := List.replicate NUMPAGES ⟨NOPAGE, 0, false⟩
    freeList := List.range NUMPAGES
    unpinnedList := []
    pinnedList := []
    pageTable := []
    flushed := [] }

/-- Read a frame (the model keeps frame indices in range; out-of-range reads
return an inert page, mirroring that Go would have panicked instead). -/
def PagerM.frameAt (p : PagerM) (f : Nat) : PageM :=
  p.frames.getD f ⟨NOPAGE, 0, false⟩

/-- Overwrite a frame. -/
def PagerM.setFrame (p : PagerM) (f : Nat) (pg : PageM) : PagerM :=
  { p with frames := p.frames.set f pg }

/-- `Pager.FlushPage` (part_007:213): if the pager has a file and the page is
dirty, write it at `pagenum*PAGESIZE` and clear the dirty bit. -/
def PagerM.FlushPage (p : PagerM) (f : Nat) : PagerM :=
  if p.hasFile ∧ (p.frameAt f).dirty then
    { (p.setFrame f { p.frameAt f with dirty := false }) with
      flushed := p.flushed ++ [(p.frameAt f).pagenum] }
  else p

/-- Errors surfaced by `GetPage`/`NewPage`. -/
inductive PagerErr where
  | invalidPagenum
  | noAvailablePages
deriving Repr, DecidableEq

/-- `Pager.NewPage` (part_007:138-161): take the head of the free list if
any; else, when the pager is disk-backed, evict the head (oldest) of the
unpinned list, flushing it first and dropping its page-table entry; else
fail with the no-available-pages error.  The victim frame is set up with
the new pagenum, `dirty = false` and `pinCount = 1`. -/
def PagerM.NewPage (p : PagerM) (pagenum : Int) : Except PagerErr (Nat × PagerM) :=
  match p.freeList with
  | f :: rest =>
    let p₁ := { p with freeList := rest }
    let p₂ := p₁.setFrame f { pagenum := pagenum, pinCount := 1, dirty := false }
    .ok (f, p₂)
  | [] =>
    match p.unpinnedList with
    | u :: rest =>
      if p.hasFile then
        let p₁ := { p with unpinnedList := rest }
        let p₂ := p₁.FlushPage u
        let p₃ := { p₂ with
          pageTable := p₂.pageTable.filter (fun e => ¬e.1 = (p.frameAt u).pagenum) }
        let p₄ := p₃.setFrame u { pagenum := pagenum, pinCount := 1, dirty := false }
        .ok (u, p₄)
      else .error .noAvailablePages
    | [] => .error .noAvailablePages

/-- `Pager.GetPage` (part_007:164-210).  Negative page numbers error out;
a resident page is pinned (+1) and promoted from the unpinned to the
pinned list if needed; otherwise a victim frame comes from `NewPage`, the
page is allocated fresh (`nPages` grows, marked dirty) or read from disk
(the read itself always succeeds in this model), and the frame is pinned
and entered into the page table. -/
def PagerM.GetPage (p : PagerM) (pagenum : Int) : Except PagerErr (Nat × PagerM) :=
  if pagenum < 0 then .error .invalidPagenum
  else
    match p.pageTable.lookup pagenum with
    | some f =>
      let p₁ :=
        if f ∈ p.unpinnedList then
          { p with
            unpinnedList := p.unpinnedList.erase f
            pinnedList := p.pinnedList ++ [f] }
        else p
      let p₂ := p₁.setFrame f { p₁.frameAt f with pinCount := (p₁.frameAt f).pinCount + 1 }
      .ok (f, p₂)
    | none =>
      match p.NewPage pagenum with
      | .error e => .error e
      | .ok (f, p₁) =>
        let p₂ :=
          if pagenum ≥ p₁.nPages then
            { (p₁.setFrame f { p₁.frameAt f with dirty := true }) with nPages := p₁.nPages + 1 }
          else p₁
        let p₃ := { p₂ with
          pinnedList := p₂.pinnedList ++ [f]
          pageTable := p₂.pageTable ++ [(pagenum, f)] }
        .ok (f, p₃)

/-- The claim's description of `getPage`, written from the claim's words
(for refutation by comparison): for every page number, a resident page is
returned pinned, and a non-resident one gets a frame from the free list or
by LRU eviction, with no other failure mode than exhaustion of both
lists. -/
def PagerM.GetPageClaimed (p : PagerM) (pagenum : Int) : Except PagerErr (Nat × PagerM) :=
  match p.pageTable.lookup pagenum with
  | some f =>
    let p₁ :=
      if f ∈ p.unpinnedList then
        { p with
          unpinnedList := p.unpinnedList.erase f
          pinnedList := p.pinnedList ++ [f] }
      else p
    let p₂ := p₁.setFrame f { p₁.frameAt f with pinCount := (p₁.frameAt f).pinCount + 1 }
    .ok (f, p₂)
  | none =>
    match p.freeList with
    | f :: rest =>
      .ok (f, ({ p with freeList := rest }).setFrame f
        { pagenum := pagenum, pinCount := 1, dirty := false })
    | [] =>
      match p.unpinnedList with
      | u :: rest =>
        let p₁ := ({ p with unpinnedList := rest }).FlushPage u
        let p₂ := { p₁ with
          pageTable := p₁.pageTable.filter (fun e => ¬e.1 = (p.frameAt u).pagenum) }
        .ok (u, p₂.setFrame u { pagenum := pagenum, pinCount := 1, dirty := false })
      | [] => .error .noAvailablePages

/-! ## Extendible hash index — `pkg/hash/table.go`, `src/unnamed/part_001`
(bucket methods) and `src/unnamed/part_002` (cell accessors, `Hasher`)

`Hasher` (part_002:54) computes `|xxhash(varint key)| mod 2^depth`.  The
xxhash mix itself is an opaque total function of the key, so the embedding
abstracts the pre-modulus value as a parameter `A : Int → Nat` and settles
every claim for all `A` (the spec only asks that "xxhash suffices").

Buckets live on pager pages; the store models the pager's backing file as
the list of bucket pages, indexed by page number (`NewHashBucket` takes
`GetFreePN`, the next page number, i.e. the store's length). -/

/-- `BUCKETSIZE` (part_002:21): `(PAGESIZE - BUCKET_HEADER_SIZE) / ENTRYSIZE`
with `PAGESIZE = 4096`, `BUCKET_HEADER_SIZE = 20`, `ENTRYSIZE = 20`. -/
def BUCKETSIZE : Nat := (4096 - 20) / 20

/-- `powInt` (table.go:278), on the naturals it is applied to. -/
def powInt (x y : Nat) : Nat := x ^ y

/-- `Hasher` (part_002:54): hash of the key modulo `2^depth`, with `A` the
absolute xxhash value.  Depths are `int64` in Go but never negative (they
start at 2 and are only ever incremented), so they are `Nat` here. -/
def Hasher (A : Int → Nat) (key : Int) (depth : Nat) : Nat :=
  A key % powInt 2 depth

/-- `HashBucket` (part_001:13): local depth and the stored entries
(`numKeys` is the length of the entry list). -/
structure HashBucketM where
  depth : Nat
  entries : List (Int × Int)
deriving Repr, DecidableEq

/-- `HashTable` (table.go:15) together with the pager contents: global
`depth`, the directory `buckets` of page numbers, and the bucket pages. -/
structure HashIndexState where
  depth : Nat
  buckets : List Nat
  store : List HashBucketM
deriving Repr, DecidableEq

/-- Bucket page at page number `pn` (out-of-range reads return an empty
bucket; the invariants below keep every directory entry in range). -/
def HashIndexState.bucketAt (s : HashIndexState) (pn : Nat) : HashBucketM :=
  s.store.getD pn ⟨0, []⟩

/-- Bucket pointed to by directory slot `i` (`GetBucket`, part_002:148). -/
def HashIndexState.slotBucket (s : HashIndexState) (i : Nat) : HashBucketM :=
  s.bucketAt (s.buckets.getD i 0)

/-- `NewHashTable` (table.go:23): global depth 2 and four fresh empty
buckets of local depth 2 on pages 0-3. -/
def NewHashTable : HashIndexState :=
  { depth := 2
    buckets := [0, 1, 2, 3]
    store := List.replicate 4 ⟨2, []⟩ }

/-- `ExtendTable` (table.go:100): global depth + 1, directory duplicated. -/
def HashIndexState.ExtendTable (s : HashIndexState) : HashIndexState :=
  { s with depth := s.depth + 1, buckets := s.buckets ++ s.buckets }

/-- The directory-rewiring loop of `Split` (table.go:144-147):
`for i := newHash; i < 2^depth; i += 2^power { buckets[i] = newPN }`.
The fuel bounds the iteration count (`buckets.length` iterations always
suffice since the step is positive). -/
def rewireLoop : Nat → List Nat → Nat → Nat → Nat → List Nat
  | 0, buckets, _, _, _ => buckets
  | fuel + 1, buckets, i, step, newPN =>
    if i < buckets.length then rewireLoop fuel (buckets.set i newPN) (i + step) step newPN
    else buckets

/-- One non-recursive pass of `HashTable.Split` (table.go:106-148, i.e.
everything before the recursive-split check): extend the table if the
local depth has reached the global depth, bump the bucket's local depth,
allocate the new bucket at the next page number, redistribute the entries
by their hash at the new depth, and rewire the directory. -/
def splitStep (A : Int → Nat) (s : HashIndexState) (pn : Nat) (hash : Nat) :
    HashIndexState :=
  let bucket := s.bucketAt pn
  let oldHash := hash % powInt 2 bucket.depth
  let newHash := oldHash + powInt 2 bucket.depth
  let s₁ := if bucket.depth = s.depth then s.ExtendTable else s
  let newDepth := bucket.depth + 1
  let newPN := s.store.length
  let moved := bucket.entries.filter (fun e => Hasher A e.1 newDepth = newHash)
  let kept := bucket.entries.filter (fun e => ¬Hasher A e.1 newDepth = newHash)
  { depth := s₁.depth
    buckets := rewireLoop (s₁.buckets.length + 1) s₁.buckets newHash (powInt 2 newDepth) newPN
    store := (s.store.set pn ⟨newDepth, kept⟩) ++ [⟨newDepth, moved⟩] }

/-- `HashTable.Split` (table.go:106-157).  The recursion has no structural
measure (with total hash collisions the Go code loops forever), so the
embedding carries fuel and returns `none` on exhaustion. -/
def Split (A : Int → Nat) : Nat → HashIndexState → Nat → Nat → Option HashIndexState
  | 0, _, _, _ => none
  | fuel + 1, s, pn, hash =>
    let bucket := s.bucketAt pn
    let oldHash := hash % powInt 2 bucket.depth
    let newHash := oldHash + powInt 2 bucket.depth
    let newPN := s.store.length
    let s₂ := splitStep A s pn hash
    let oldNKeys := (s₂.bucketAt pn).entries.length
    let newNKeys := (s₂.bucketAt newPN).entries.length
    if oldNKeys ≥ BUCKETSIZE then Split A fuel s₂ pn oldHash
    else if newNKeys ≥ BUCKETSIZE then Split A fuel s₂ newPN newHash
    else some s₂

/-- `HashTable.Insert` (table.go:160-182) with `HashBucket.Insert`
(part_001:54) inlined: append the entry to the bucket of the key's hash;
split when the bucket has reached `BUCKETSIZE` entries. -/
def HashTableInsert (A : Int → Nat) (fuel : Nat) (s : HashIndexState)
    (k v : Int) : Option HashIndexState :=
  let hash := Hasher A k s.depth
  let pn := s.buckets.getD hash 0
  let b := s.bucketAt pn
  let b' : HashBucketM := ⟨b.depth, b.entries ++ [(k, v)]⟩
  let s₁ : HashIndexState := { s with store := s.store.set pn b' }
  if b'.entries.length ≥ BUCKETSIZE then Split A fuel s₁ pn hash else some s₁

/-- `HashTable.Update` (table.go:185-198): error when the key is absent
from its bucket, else overwrite in place. -/
def HashTableUpdate (A : Int → Nat) (s : HashIndexState) (k v : Int) :
    Option HashIndexState :=
  let hash := Hasher A k s.depth
  let pn := s.buckets.getD hash 0
  let b := s.bucketAt pn
  if b.entries.any (fun e => e.1 = k) then
    some { s with store := s.store.set pn ⟨b.depth, bucketUpdateEntries b.entries k v⟩ }
  else none

/-- `HashTable.Delete` (table.go:201-214): error when the key is absent
from its bucket. -/
def HashTableDelete (A : Int → Nat) (s : HashIndexState) (k : Int) :
    Option HashIndexState :=
  let hash := Hasher A k s.depth
  let pn := s.buckets.getD hash 0
  let b := s.bucketAt pn
  if b.entries.any (fun e => e.1 = k) then
    some { s with store := s.store.set pn ⟨b.depth, bucketDeleteEntries b.entries k⟩ }
  else none

/-- `HashTable.Find` (table.go:73-97) with `HashBucket.Find` (part_001:42):
hash the key, bounds-check the slot, scan the bucket for the first entry
with the key. -/
def HashTableFind (A : Int → Nat) (s : HashIndexState) (k : Int) :
    Option (Int × Int) :=
  let hash := Hasher A k s.depth
  if hash < s.buckets.length then
    (s.slotBucket hash).entries.find? (fun e => e.1 = k)
  else none

/-! ## B+ tree — `pkg/btree/btree_subr.go`, `pkg/btree/entry.go`,
`pkg/btree/cursor.go`

Two levels of embedding:
* a page-level leaf model (`LeafNodeM`) carrying page numbers and right
  sibling pointers, for the split mechanics of `LeafNode.insert`/`split`;
* an algebraic tree (`BTree`) of node contents, for whole-index insert and
  find.  Page numbers and sibling pointers are dropped there: `Find` and
  `Insert` never follow sibling pointers, and the root-split dance of
  `BTreeIndex.Insert` (copy the old root to a fresh page, rebuild page 0 as
  an internal node over the two halves) is content-wise exactly "new root
  with one separator and two children".

`search` uses Go's `sort.Search`, a binary search for the first index
satisfying a monotone predicate; on the sorted node contents guaranteed by
the tree invariant this is the first index satisfying the predicate, which
is what `List.findIdx` computes. -/

/-- `ENTRIES_PER_LEAF_NODE` (btree_subr.go:27): with `PAGESIZE = 4096`,
header `1 + 10 + 10` and entry size 20, this is 202. -/
def ENTRIES_PER_LEAF_NODE : Nat := (4096 - 21) / 20 - 1

/-- `KEYS_PER_INTERNAL_NODE` (btree_subr.go:34): also 202. -/
def KEYS_PER_INTERNAL_NODE : Nat := (4096 - 11 - 10) / (10 + 10) - 1

/-- Insert an element at position `n` (the net effect of the shift-right
loops in `LeafNode.insert` and `InternalNode.insertSplit`). -/
def insertAt {α : Type} (n : Nat) (a : α) (l : List α) : List α :=
  l.take n ++ a :: l.drop n

/-- `LeafNode.search` (entry.go:99): first index with key ≥ the given key. -/
def leafSearch (es : List (Int × Int)) (k : Int) : Nat :=
  es.findIdx (fun e => e.1 ≥ k)

/-- `InternalNode.search` (entry.go:254): first index with key > the given
key. -/
def internalSearch (keys : List Int) (k : Int) : Nat :=
  keys.findIdx (fun x => x > k)

/-- A leaf node as stored on its page (btree_subr.go:58). -/
structure LeafNodeM where
  pagenum : Int
  entries : List (Int × Int)
  rightSiblingPN : Int
deriving Repr, DecidableEq

/-- The `Split` propagation record (entry.go:70). -/
structure SplitM where
  isSplit : Bool
  key : Int
  leftPN : Int
  rightPN : Int
  err : Option String
deriving Repr, DecidableEq

/-- `LeafNode.split` (entry.go:174-200): allocate the new right leaf at the
fresh page `newPN`, rewire the sibling pointers (the new leaf takes the
old right sibling, the old leaf points to the new one), move the entries
from `midpoint = numKeys/2` on, and promote the right node's first key. -/
def leafSplit (node : LeafNodeM) (newPN : Int) : LeafNodeM × LeafNodeM × SplitM :=
  let prevSiblingPN := node.rightSiblingPN
  let midpoint := node.entries.length / 2
  let left : LeafNodeM := ⟨node.pagenum, node.entries.take midpoint, newPN⟩
  let right : LeafNodeM := ⟨newPN, node.entries.drop midpoint, prevSiblingPN⟩
  (left, right,
    ⟨true, ((node.entries.drop midpoint).headD (0, 0)).1, node.pagenum, newPN, none⟩)

/-- `LeafNode.insert` (entry.go:114-151) at the page level: returns the
updated leaf, the freshly allocated right leaf if a split happened, and
the `Split` record.  `newPN` is the page number `createLeafNode` would
hand out. -/
def leafInsertM (node : LeafNodeM) (key value : Int) (update : Bool) (newPN : Int) :
    LeafNodeM × Option LeafNodeM × SplitM :=
  let insertPos := leafSearch node.entries key
  if insertPos < node.entries.length ∧ (node.entries.getD insertPos (0, 0)).1 = key then
    if update then
      ({ node with entries := node.entries.set insertPos (key, value) }, none,
        ⟨false, 0, 0, 0, none⟩)
    else (node, none, ⟨false, 0, 0, 0, some "cannot insert duplicate key"⟩)
  else if update then (node, none, ⟨false, 0, 0, 0, some "cannot update non-existent entry"⟩)
  else
    let node₁ := { node with entries := insertAt insertPos (key, value) node.entries }
    if node₁.entries.length > ENTRIES_PER_LEAF_NODE then
      let (l, r, sp) := leafSplit node₁ newPN
      (l, some r, sp)
    else (node₁, none, ⟨false, 0, 0, 0, none⟩)

/-- B+ tree node contents (`LeafNode` / `InternalNode`, btree_subr.go:58-68):
an internal node with `numKeys` separator keys has `numKeys + 1` children. -/
inductive BTree where
  | leaf (entries : List (Int × Int))
  | node (keys : List Int) (kids : List BTree)

/-- The child a descent takes (`getChildAt(search k)`,
entry.go:272-273). -/
def selectChild (keys : List Int) (kids : List BTree) (k : Int) : BTree :=
  kids.getD (internalSearch keys k) (.leaf [])

/-- A selected child is smaller than its node (for termination: it is a
member of `kids`, or the inert default leaf). -/
theorem selectChild_sizeOf_lt (keys : List Int) (kids : List BTree) (k : Int) :
    sizeOf (selectChild keys kids k) < 1 + sizeOf keys + sizeOf kids := by
  unfold selectChild
  by_cases h : internalSearch keys k < kids.length
  · have hmem : kids.getD (internalSearch keys k) (.leaf []) ∈ kids := by
      rw [List.getD_eq_getElem _ _ h]
      exact List.getElem_mem h
    have h1 := List.sizeOf_lt_of_mem hmem
    have h2 : 1 ≤ sizeOf keys := by cases keys <;> simp_arith
    omega
  · rw [List.getD_eq_default _ _ (Nat.le_of_not_lt h)]
    have h1 : sizeOf (BTree.leaf []) = 2 := rfl
    have h2 : 1 ≤ sizeOf keys := by cases keys <;> simp_arith
    have h3 : 1 ≤ sizeOf kids := by cases kids <;> simp_arith
    omega

/-- `LeafNode.get` (entry.go:203-215): search, then check the key at the
found index. -/
def leafGet (es : List (Int × Int)) (k : Int) : Option Int :=
  let index := leafSearch es k
  if index < es.length ∧ (es.getD index (0, 0)).1 = k then
    some (es.getD index (0, 0)).2
  else none

/-- `Node.get` (entry.go:203, 370): leaf lookup, or descend into the
searched child. -/
def nodeGet (t : BTree) (k : Int) : Option Int :=
  match t with
  | .leaf es => leafGet es k
  | .node keys kids => nodeGet (selectChild keys kids k) k
termination_by sizeOf t
decreasing_by
  simp_wf
  exact selectChild_sizeOf_lt _ _ _

/-- `BTreeIndex.Find` (cursor.go:232-250): wrap the root `get` into the
found entry. -/
def btFind (t : BTree) (k : Int) : Option (Int × Int) :=
  (nodeGet t k).map (fun v => (k, v))

/-- The index-level errors of the insert/update path (entry.go:128, 134;
the source carries them as strings in `Split.err`). -/
inductive BErr where
  | duplicateKey
  | missingEntry
deriving Repr, DecidableEq

/-- Result of a node-level insert: the `Split` record of the source,
algebraically — no split, a split with promoted key, or an error
propagated upward with the (unchanged) subtree. -/
inductive IRes where
  | ok (t : BTree)
  | split (l : BTree) (key : Int) (r : BTree)
  | err (e : BErr) (t : BTree)

/-- `LeafNode.insert` (entry.go:114-151) at the tree level (the sibling
rewiring lives in the page-level model `leafInsertM`). -/
def btLeafInsert (es : List (Int × Int)) (k v : Int) (update : Bool) : IRes :=
  let pos := leafSearch es k
  if pos < es.length ∧ (es.getD pos (0, 0)).1 = k then
    if update then .ok (.leaf (es.set pos (k, v)))
    else .err .duplicateKey (.leaf es)
  else if update then .err .missingEntry (.leaf es)
  else
    let es₁ := insertAt pos (k, v) es
    if es₁.length > ENTRIES_PER_LEAF_NODE then
      let mid := es₁.length / 2
      .split (.leaf (es₁.take mid)) (((es₁.drop mid).headD (0, 0)).1) (.leaf (es₁.drop mid))
    else .ok (.leaf es₁)

/-- `InternalNode.insert` + `insertSplit` + `split` (entry.go:268-367) and
`LeafNode.insert`, combined over the tree. -/
def btInsertNode (t : BTree) (k v : Int) (update : Bool) : IRes :=
  match t with
  | .leaf es => btLeafInsert es k v update
  | .node keys kids =>
    let childIdx := internalSearch keys k
    match btInsertNode (selectChild keys kids k) k v update with
    | .ok c => .ok (.node keys (kids.set childIdx c))
    | .err e c => .err e (.node keys (kids.set childIdx c))
    | .split l key r =>
      let pos := internalSearch keys key
      let keys₁ := insertAt pos key keys
      let kids₁ := insertAt (pos + 1) r (kids.set childIdx l)
      if keys₁.length > KEYS_PER_INTERNAL_NODE then
        let m := (keys₁.length - 1) / 2
        .split (.node (keys₁.take (m - 1)) (kids₁.take m)) (keys₁.getD (m - 1) 0)
          (.node (keys₁.drop m) (kids₁.drop m))
      else .ok (.node keys₁ kids₁)
termination_by sizeOf t
decreasing_by
  simp_wf
  exact selectChild_sizeOf_lt _ _ _

/-- `BTreeIndex.Insert` / `BTreeIndex.Update` (cursor.go:253-330): run the
root insert; on a root split build the fresh root (one separator, the two
halves — the source additionally moves the left half to a new page so the
root stays on page 0); on error return it with the tree untouched by that
error path. -/
def btInsert (t : BTree) (k v : Int) (update : Bool) : Option BErr × BTree :=
  match btInsertNode t k v update with
  | .ok t' => (none, t')
  | .err e t' => (some e, t')
  | .split l key r => (none, .node [key] [l, r])

/-- Lower bound check (`none` = unbounded). -/
def lbOK : Option Int → Int → Prop
  | none, _ => True
  | some l, k => l ≤ k

/-- Strict lower bound check. -/
def lbStrict : Option Int → Int → Prop
  | none, _ => True
  | some l, k => l < k

/-- Upper bound check (`none` = unbounded; strict as in the descent
semantics of `search`). -/
def ubOK : Option Int → Int → Prop
  | none, _ => True
  | some h, k => k < h

/-- An entry key admissible within bounds. -/
def inb (lo hi : Option Int) (k : Int) : Prop := lbOK lo k ∧ ubOK hi k

/-- A separator key strictly within bounds. -/
def inbS (lo hi : Option Int) (k : Int) : Prop := lbStrict lo k ∧ ubOK hi k

/-- Lower bound of the `i`-th child of a node. -/
def childLo (lo : Option Int) (keys : List Int) (i : Nat) : Option Int :=
  if i = 0 then lo else some (keys.getD (i - 1) 0)

/-- Upper bound of the `i`-th child of a node. -/
def childHi (hi : Option Int) (keys : List Int) (i : Nat) : Option Int :=
  if i < keys.length then some (keys.getD i 0) else hi

/-- Well-formedness of a (sub)tree between bounds: leaves hold strictly
sorted, bounded entries; internal nodes have `numKeys + 1` children,
strictly sorted separator keys strictly inside the bounds, and child `i`
well-formed between the adjacent separators. -/
def WF (lo : Option Int) (t : BTree) (hi : Option Int) : Prop :=
  match t with
  | .leaf es =>
    List.Pairwise (fun a b => a.1 < b.1) es ∧ ∀ e ∈ es, inb lo hi e.1
  | .node keys kids =>
    kids.length = keys.length + 1 ∧
    List.Pairwise (· < ·) keys ∧
    (∀ x ∈ keys, inbS lo hi x) ∧
    ∀ i, ∀ h : i < kids.length,
      WF (childLo lo keys i) (kids.get ⟨i, h⟩) (childHi hi keys i)
termination_by sizeOf t
decreasing_by
  simp_wf
  have h1 := List.sizeOf_lt_of_mem (List.getElem_mem h)
  omega

/-- The key is absent from every leaf of the tree. -/
def KeyAbsentT (k : Int) (t : BTree) : Prop :=
  match t with
  | .leaf es => ∀ e ∈ es, e.1 ≠ k
  | .node _ kids => ∀ i, ∀ h : i < kids.length, KeyAbsentT k (kids.get ⟨i, h⟩)
termination_by sizeOf t
decreasing_by
  simp_wf
  have h1 := List.sizeOf_lt_of_mem (List.getElem_mem h)
  omega

/-- The key is stored in some leaf of the tree. -/
def KeyInT (k : Int) (t : BTree) : Prop :=
  match t with
  | .leaf es => ∃ e ∈ es, e.1 = k
  | .node _ kids => ∃ i, ∃ h : i < kids.length, KeyInT k (kids.get ⟨i, h⟩)
termination_by sizeOf t
decreasing_by
  simp_wf
  have h1 := List.sizeOf_lt_of_mem (List.getElem_mem h)
  omega

/-- States reachable by hash-index operations from a fresh table ("between
hash-index operations"). -/
inductive HashReachable (A : Int → Nat) : HashIndexState → Prop where
  | init : HashReachable A NewHashTable
  | insert {s s' : HashIndexState} {fuel : Nat} {k v : Int} :
      HashReachable A s → HashTableInsert A fuel s k v = some s' → HashReachable A s'
  | update {s s' : HashIndexState} {k v : Int} :
      HashReachable A s → HashTableUpdate A s k v = some s' → HashReachable A s'
  | delete {s s' : HashIndexState} {k : Int} :
      HashReachable A s → HashTableDelete A s k = some s' → HashReachable A s'

/-- The hash-index directory invariant: the directory has `2^depth` slots,
every slot points into the store, every referenced bucket has local depth
at most the global depth, keys sit in buckets matching their hash modulo
the bucket's local depth, and two slots share a bucket exactly when they
agree modulo that bucket's local depth. -/
def HInv (A : Int → Nat) (s : HashIndexState) : Prop :=
  s.buckets.length = 2 ^ s.depth ∧
  (∀ i, i < s.buckets.length → s.buckets.getD i 0 < s.store.length) ∧
  (∀ i, i < s.buckets.length → (s.slotBucket i).depth ≤ s.depth) ∧
  (∀ i, i < s.buckets.length → ∀ e ∈ (s.slotBucket i).entries,
    A e.1 % 2 ^ (s.slotBucket i).depth = i % 2 ^ (s.slotBucket i).depth) ∧
  (∀ i j, i < s.buckets.length → j < s.buckets.length →
    (s.buckets.getD i 0 = s.buckets.getD j 0 ↔
      i % 2 ^ (s.slotBucket i).depth = j % 2 ^ (s.slotBucket i).depth))

end BumbleBase

namespace BumbleBase

/-! ## Theorems: C1, C10, C9, C6 -/

/-- The concrete failing input for C1: edges `1→2`, `1→3`, `3→1`. -/
def cexGraph : Graph := { edges := [(1, 2), (1, 3), (3, 1)] }

/-- C1: `Graph.DetectCycle` returns true iff the induced digraph has a
directed cycle, exploring every out-edge of each visited vertex.  FALSE on
the source: the dfs follows only the first out-edge of each vertex.  On
the edge multiset `{1→2, 1→3, 3→1}` the digraph has the directed cycle
`1→3→1`, but `DetectCycle` walks `1→2`, finds no out-edge of `2`, and
returns false. -/
theorem detectCycle_misses_cycle :
    cexGraph.DetectCycle = false ∧ HasCycle cexGraph := by
  refine ⟨rfl, 1, 3, ?_, ?_⟩
  · simp [cexGraph]
  · exact Relation.ReflTransGen.single (by simp [cexGraph])

/-- C10: every `LockManager.Lock` and `LockManager.Unlock` call releases the
manager's map mutex `lmMtx` before returning.  FALSE on the source for
`Unlock` of a never-locked resource: on a fresh lock manager,
`Unlock(("t",0), R)` returns its error with `lmMtx` still held (lock.go:71
returns before the `lm.lmMtx.Unlock()` at lock.go:73), while `Lock` on the
same state does release it. -/
theorem unlock_missing_resource_keeps_lmMtx :
    (LockManager.Unlock ⟨[], false⟩ ⟨"t", 0⟩ LockTy.rLock =
      (some "tried to unlock nonexistent resource", ⟨[], true⟩)) ∧
    (LockManager.Lock ⟨[], false⟩ ⟨"t", 0⟩ LockTy.rLock).2.lmMtxHeld = false := by
  constructor
  · rfl
  · rfl

/-- C9: `TransactionManager.Lock` and `TransactionManager.Unlock` called
with a clientId that has no active transaction return `nil` immediately:
no error, no lock-manager change, no transaction or graph change. -/
theorem tm_lock_unlock_no_transaction (tm : TransactionManager) (clientId : TxId)
    (tableName : String) (resourceKey : Int) (lType : LockTy)
    (h : tm.transactions.lookup clientId = none) :
    tm.Lock clientId tableName resourceKey lType = (none, tm) ∧
    tm.Unlock clientId tableName resourceKey lType = (none, tm) := by
  constructor
  · unfold TransactionManager.Lock
    rw [h]
  · unfold TransactionManager.Unlock
    rw [h]

/-- Witness for C9 at a concrete manager state. -/
theorem tm_lock_unlock_no_transaction_witness :
    (TransactionManager.Lock ⟨[(1, [])], ⟨[]⟩, ⟨[], false⟩⟩ 2 "t" 5 LockTy.wLock =
      (none, ⟨[(1, [])], ⟨[]⟩, ⟨[], false⟩⟩)) ∧
    (TransactionManager.Unlock ⟨[(1, [])], ⟨[]⟩, ⟨[], false⟩⟩ 2 "t" 5 LockTy.wLock =
      (none, ⟨[(1, [])], ⟨[]⟩, ⟨[], false⟩⟩)) :=
  tm_lock_unlock_no_transaction ⟨[(1, [])], ⟨[]⟩, ⟨[], false⟩⟩ 2 "t" 5 LockTy.wLock (by rfl)

/-- Frames are preserved by `setFrame` at the written index when it is in
range. -/
theorem frameAt_setFrame_self (p : PagerM) (f : Nat) (pg : PageM)
    (h : f < p.frames.length) : (p.setFrame f pg).frameAt f = pg := by
  simp [PagerM.setFrame, PagerM.frameAt, List.getD_eq_getElem?_getD,
    List.getElem?_set_self, h]

/-- The freshly-opened pager used as the concrete C5 input: `NewPager`
followed by `Open` on an empty file (`hasFile` set, `nPages = 0`,
part_007:80-105). -/
def openedPager : PagerM := { NewPager with hasFile := true }

/-- C5 (amended): for every page number `pn ≥ 0` on a disk-backed pager:
a resident page is returned with pin count incremented and, if it was on
the unpinned list, moved to the pinned list; a non-resident page gets its
victim frame from the free list first, else by evicting the
least-recently-unpinned frame (head of the unpinned list), flushing it
first exactly when it is dirty; if both lists are empty the call fails
with the no-available-pages error. -/
theorem getPage_behavior (p : PagerM) (pn : Int) (hpn : ¬pn < 0)
    (hf : p.hasFile = true) :
    (∀ f, p.pageTable.lookup pn = some f → f < p.frames.length →
      ∃ p', p.GetPage pn = .ok (f, p') ∧
        (p'.frameAt f).pinCount = (p.frameAt f).pinCount + 1 ∧
        (f ∈ p.unpinnedList →
          p'.unpinnedList = p.unpinnedList.erase f ∧ f ∈ p'.pinnedList)) ∧
    (∀ f rest, p.pageTable.lookup pn = none → p.freeList = f :: rest →
      ∃ p', p.GetPage pn = .ok (f, p') ∧ p'.freeList = rest) ∧
    (∀ u rest, p.pageTable.lookup pn = none → p.freeList = [] →
      p.unpinnedList = u :: rest →
      ∃ p', p.GetPage pn = .ok (u, p') ∧
        p'.flushed = p.flushed ++
          (if (p.frameAt u).dirty then [(p.frameAt u).pagenum] else [])) ∧
    (p.pageTable.lookup pn = none → p.freeList = [] → p.unpinnedList = [] →
      p.GetPage pn = .error .noAvailablePages) := by
  refine ⟨?_, ?_, ?_, ?_⟩
  · intro f hres hlt
    simp only [PagerM.GetPage, if_neg hpn, hres]
    by_cases hu : f ∈ p.unpinnedList
    · refine ⟨_, rfl, ?_, fun _ => ⟨?_, ?_⟩⟩
      · rw [if_pos hu]
        exact congrArg PageM.pinCount (frameAt_setFrame_self _ f _ hlt)
      · rw [if_pos hu]
        simp [PagerM.setFrame]
      · rw [if_pos hu]
        simp [PagerM.setFrame]
    · refine ⟨_, rfl, ?_, fun h => absurd h hu⟩
      rw [if_neg hu]
      exact congrArg PageM.pinCount (frameAt_setFrame_self _ f _ hlt)
  · intro f rest hres hfree
    simp only [PagerM.GetPage, if_neg hpn, hres, PagerM.NewPage, hfree]
    refine ⟨_, rfl, ?_⟩
    split <;> simp [PagerM.setFrame]
  · intro u rest hres hfree hunpin
    simp only [PagerM.GetPage, if_neg hpn, hres, PagerM.NewPage, hfree, hunpin, hf,
      if_true]
    refine ⟨_, rfl, ?_⟩
    by_cases hd : (p.frameAt u).dirty
    all_goals
      simp only [PagerM.FlushPage, PagerM.frameAt, PagerM.setFrame] at hd ⊢
      split_ifs <;> simp_all [PagerM.frameAt]
  · intro hres hfree hunpin
    simp [PagerM.GetPage, if_neg hpn, hres, PagerM.NewPage, hfree, hunpin]

/-- Witness for C5 at concrete states: a resident page on the unpinned
list, a fresh pager with a free frame, a full pager with an unpinned
victim, and a fully-pinned pager. -/
theorem getPage_behavior_witness :
    (∃ p', PagerM.GetPage
        ⟨true, 1, [⟨0, 0, false⟩], [], [0], [], [(0, 0)], []⟩ 0 = .ok (0, p') ∧
        (p'.frameAt 0).pinCount = 1 ∧ (0 ∉ p'.unpinnedList ∧ 0 ∈ p'.pinnedList)) ∧
    (∃ p', openedPager.GetPage 0 = .ok (0, p') ∧
      p'.freeList = (List.range NUMPAGES).tail) ∧
    (∃ p', PagerM.GetPage
        ⟨true, 1, [⟨0, 0, true⟩], [], [0], [], [(0, 0)], []⟩ 1 = .ok (0, p') ∧
        p'.flushed = [0]) ∧
    (PagerM.GetPage ⟨true, 1, [⟨0, 1, false⟩], [], [], [0], [(0, 0)], []⟩ 1 =
      .error .noAvailablePages) := by
  have h1 := getPage_behavior ⟨true, 1, [⟨0, 0, false⟩], [], [0], [], [(0, 0)], []⟩ 0
    (by decide) rfl
  have h2 := getPage_behavior openedPager 0 (by decide) rfl
  have h3 := getPage_behavior ⟨true, 1, [⟨0, 0, true⟩], [], [0], [], [(0, 0)], []⟩ 1
    (by decide) rfl
  have h4 := getPage_behavior ⟨true, 1, [⟨0, 1, false⟩], [], [], [0], [(0, 0)], []⟩ 1
    (by decide) rfl
  refine ⟨?_, ?_, ?_, h4.2.2.2 rfl rfl rfl⟩
  · obtain ⟨p', hget, hpin, hmove⟩ := h1.1 0 rfl (by decide)
    obtain ⟨hm1, hm2⟩ := hmove (by decide)
    refine ⟨p', hget, by simpa using hpin, ?_, hm2⟩
    rw [hm1]
    decide
  · obtain ⟨p', hget, hfree⟩ := h2.2.1 0 ((List.range NUMPAGES).tail) rfl (by decide)
    exact ⟨p', hget, hfree⟩
  · obtain ⟨p', hget, hfl⟩ := h3.2.2.1 0 [] rfl rfl rfl
    exact ⟨p', hget, by simpa using hfl⟩

/-- C5, original wording, refuted: "for every page number pn" — the source
errors out on a negative page number before consulting any list
(part_007:167-169), while the claimed behavior hands out a free frame. -/
theorem getPage_negative_pagenum_cex :
    openedPager.GetPage (-1) = .error .invalidPagenum ∧
    ∃ f p', openedPager.GetPageClaimed (-1) = .ok (f, p') := by
  refine ⟨rfl, 0, _, rfl⟩

/-! ### Hash-index lemmas and theorems (C2, C8, and the hash half of C7) -/

/-- `rewireLoop` preserves the directory length. -/
theorem rewireLoop_length (fuel : Nat) (buckets : List Nat) (i step newPN : Nat) :
    (rewireLoop fuel buckets i step newPN).length = buckets.length := by
  induction fuel generalizing buckets i with
  | zero => rfl
  | succ n ih =>
    unfold rewireLoop
    split
    · rw [ih]
      simp
    · rfl

/-- Characterization of the rewiring loop: with a positive step and enough
fuel, slot `j` is overwritten exactly when `j` lies on the arithmetic
progression `i, i+step, i+2·step, …` inside the directory. -/
theorem rewireLoop_getD (fuel : Nat) (buckets : List Nat) (i step newPN : Nat)
    (hstep : 1 ≤ step) (hfuel : buckets.length ≤ fuel + i) (j : Nat) :
    (rewireLoop fuel buckets i step newPN).getD j 0 =
      if i ≤ j ∧ step ∣ (j - i) ∧ j < buckets.length then newPN
      else buckets.getD j 0 := by
  induction fuel generalizing buckets i with
  | zero =>
    unfold rewireLoop
    rw [if_neg]
    rintro ⟨h1, _, h3⟩
    omega
  | succ n ih =>
    unfold rewireLoop
    by_cases hi : i < buckets.length
    · rw [if_pos hi, ih (buckets.set i newPN) (i + step) (by simp; omega)]
      simp only [List.length_set]
      by_cases hj : j = i
      · subst hj
        rw [if_neg (by omega), if_pos ⟨le_refl _, by simp, hi⟩]
        simp [List.getD_eq_getElem?_getD, List.getElem?_set_self, hi]
      · have hset : (buckets.set i newPN).getD j 0 = buckets.getD j 0 := by
          simp [List.getD_eq_getElem?_getD, List.getElem?_set_ne (fun h => hj h.symm)]
        rw [hset]
        by_cases hc : i ≤ j ∧ step ∣ (j - i) ∧ j < buckets.length
        · obtain ⟨hc1, hc2, hc3⟩ := hc
          have hij : i < j := lt_of_le_of_ne hc1 (fun h => hj h.symm)
          have hstep' : step ≤ j - i := Nat.le_of_dvd (by omega) hc2
          have hdvd : step ∣ j - (i + step) := by
            have heq : j - (i + step) = (j - i) - step := by omega
            rw [heq]
            exact Nat.dvd_sub' hc2 dvd_rfl
          rw [if_pos ⟨by omega, hdvd, hc3⟩, if_pos ⟨hc1, hc2, hc3⟩]
        · have hnot : ¬(i + step ≤ j ∧ step ∣ (j - (i + step)) ∧ j < buckets.length) := by
            rintro ⟨h1, h2, h3⟩
            refine hc ⟨by omega, ?_, h3⟩
            have heq : j - i = (j - (i + step)) + step := by omega
            rw [heq]
            exact Nat.dvd_add h2 dvd_rfl
          rw [if_neg hnot, if_neg hc]
    · rw [if_neg hi, if_neg (by rintro ⟨_, _, h⟩; omega)]

/-- The extended (or unchanged) directory used by `splitStep` before
rewiring. -/
def preDir (s : HashIndexState) (pn : Nat) : List Nat :=
  if (s.bucketAt pn).depth = s.depth then s.buckets ++ s.buckets else s.buckets

/-- `getD` at the length of the base list after a set-and-concat. -/
theorem getD_set_concat_len {α : Type} (l : List α) (n : Nat) (b c d : α) :
    ((l.set n b) ++ [c]).getD l.length d = c := by
  rw [List.getD_eq_getElem?_getD,
    show l.length = (l.set n b).length from by simp, List.getElem?_concat_length]
  rfl

/-- `getD` at the written index after a set-and-concat. -/
theorem getD_set_concat_at {α : Type} (l : List α) (n : Nat) (b c d : α)
    (h : n < l.length) : ((l.set n b) ++ [c]).getD n d = b := by
  rw [List.getD_eq_getElem?_getD, List.getElem?_append_left (by simpa using h),
    List.getElem?_set_self (by simpa using h)]
  rfl

/-- `getD` elsewhere after a set-and-concat. -/
theorem getD_set_concat_other {α : Type} (l : List α) (n q : Nat) (b c d : α)
    (h1 : q ≠ n) (h2 : q ≠ l.length) :
    ((l.set n b) ++ [c]).getD q d = l.getD q d := by
  rw [List.getD_eq_getElem?_getD, List.getD_eq_getElem?_getD]
  by_cases hlt : q < l.length
  · rw [List.getElem?_append_left (by simpa using hlt),
      List.getElem?_set_ne (fun h => h1 h.symm)]
  · have h3 : l.length ≤ q := Nat.le_of_not_lt hlt
    have h4 : ((l.set n b) ++ [c]).length ≤ q := by
      simp only [List.length_append, List.length_set, List.length_cons, List.length_nil]
      omega
    rw [List.getElem?_eq_none h4, List.getElem?_eq_none h3]

/-- The store after `splitStep`: the split bucket overwritten with the kept
entries, the new bucket appended with the moved ones. -/
theorem splitStep_store (A : Int → Nat) (s : HashIndexState) (pn hash : Nat) :
    (splitStep A s pn hash).store =
      (s.store.set pn ⟨(s.bucketAt pn).depth + 1,
        (s.bucketAt pn).entries.filter
          (fun e => ¬Hasher A e.1 ((s.bucketAt pn).depth + 1) =
            hash % 2 ^ (s.bucketAt pn).depth + 2 ^ (s.bucketAt pn).depth)⟩) ++
      [⟨(s.bucketAt pn).depth + 1,
        (s.bucketAt pn).entries.filter
          (fun e => Hasher A e.1 ((s.bucketAt pn).depth + 1) =
            hash % 2 ^ (s.bucketAt pn).depth + 2 ^ (s.bucketAt pn).depth)⟩] := rfl

/-- After `splitStep`, the new bucket (at the old store's length) holds the
moved entries at the incremented depth. -/
theorem splitStep_bucketAt_new (A : Int → Nat) (s : HashIndexState) (pn hash : Nat) :
    (splitStep A s pn hash).bucketAt s.store.length =
      ⟨(s.bucketAt pn).depth + 1,
        (s.bucketAt pn).entries.filter
          (fun e => Hasher A e.1 ((s.bucketAt pn).depth + 1) =
            hash % 2 ^ (s.bucketAt pn).depth + 2 ^ (s.bucketAt pn).depth)⟩ := by
  show (splitStep A s pn hash).store.getD s.store.length ⟨0, []⟩ = _
  rw [splitStep_store, getD_set_concat_len]

/-- After `splitStep`, the split bucket keeps the non-moved entries at the
incremented depth. -/
theorem splitStep_bucketAt_old (A : Int → Nat) (s : HashIndexState) (pn hash : Nat)
    (hpn : pn < s.store.length) :
    (splitStep A s pn hash).bucketAt pn =
      ⟨(s.bucketAt pn).depth + 1,
        (s.bucketAt pn).entries.filter
          (fun e => ¬Hasher A e.1 ((s.bucketAt pn).depth + 1) =
            hash % 2 ^ (s.bucketAt pn).depth + 2 ^ (s.bucketAt pn).depth)⟩ := by
  show (splitStep A s pn hash).store.getD pn ⟨0, []⟩ = _
  rw [splitStep_store, getD_set_concat_at _ _ _ _ _ hpn]

/-- `splitStep` does not touch any other bucket page. -/
theorem splitStep_bucketAt_other (A : Int → Nat) (s : HashIndexState) (pn hash q : Nat)
    (hq : q ≠ pn) (hq' : q ≠ s.store.length) :
    (splitStep A s pn hash).bucketAt q = s.bucketAt q := by
  show (splitStep A s pn hash).store.getD q ⟨0, []⟩ = _
  rw [splitStep_store, getD_set_concat_other _ _ _ _ _ _ hq hq']
  rfl

/-- `splitStep`'s global depth: incremented exactly when the table doubles. -/
theorem splitStep_depth (A : Int → Nat) (s : HashIndexState) (pn hash : Nat) :
    (splitStep A s pn hash).depth =
      if (s.bucketAt pn).depth = s.depth then s.depth + 1 else s.depth := by
  simp only [splitStep, HashIndexState.ExtendTable]
  split <;> rfl

/-- `splitStep`'s store length: one new page. -/
theorem splitStep_store_length (A : Int → Nat) (s : HashIndexState) (pn hash : Nat) :
    (splitStep A s pn hash).store.length = s.store.length + 1 := by
  simp only [splitStep]
  simp

/-- `splitStep`'s directory length matches the (possibly doubled)
pre-rewire directory. -/
theorem splitStep_buckets_length (A : Int → Nat) (s : HashIndexState) (pn hash : Nat) :
    (splitStep A s pn hash).buckets.length = (preDir s pn).length := by
  simp only [splitStep, preDir, HashIndexState.ExtendTable]
  split <;> simp [rewireLoop_length]

/-- The directory after `splitStep`: slot `i` points to the new page
exactly when `i ≡ newHash (mod 2^(d+1))`, and is otherwise unchanged
(relative to the conditional doubling). -/
theorem splitStep_dir_getD (A : Int → Nat) (s : HashIndexState) (pn hash : Nat)
    (i : Nat) (hi : i < (preDir s pn).length) :
    (splitStep A s pn hash).buckets.getD i 0 =
      if i % 2 ^ ((s.bucketAt pn).depth + 1) =
          hash % 2 ^ (s.bucketAt pn).depth + 2 ^ (s.bucketAt pn).depth
      then s.store.length else (preDir s pn).getD i 0 := by
  have hloop : (splitStep A s pn hash).buckets =
      rewireLoop ((preDir s pn).length + 1) (preDir s pn)
        (hash % 2 ^ (s.bucketAt pn).depth + 2 ^ (s.bucketAt pn).depth)
        (2 ^ ((s.bucketAt pn).depth + 1)) s.store.length := by
    simp only [splitStep, preDir, HashIndexState.ExtendTable, powInt]
    split <;> rfl
  rw [hloop, rewireLoop_getD _ _ _ _ _ (Nat.one_le_two_pow) (by omega)]
  have hnhlt : hash % 2 ^ (s.bucketAt pn).depth + 2 ^ (s.bucketAt pn).depth <
      2 ^ ((s.bucketAt pn).depth + 1) := by
    have := Nat.mod_lt hash (pow_pos (by omega : (0 : ℕ) < 2) (s.bucketAt pn).depth)
    rw [pow_succ]
    omega
  by_cases hcong : i % 2 ^ ((s.bucketAt pn).depth + 1) =
      hash % 2 ^ (s.bucketAt pn).depth + 2 ^ (s.bucketAt pn).depth
  · have hle : hash % 2 ^ (s.bucketAt pn).depth + 2 ^ (s.bucketAt pn).depth ≤ i := by
      calc hash % 2 ^ (s.bucketAt pn).depth + 2 ^ (s.bucketAt pn).depth
          = i % 2 ^ ((s.bucketAt pn).depth + 1) := hcong.symm
        _ ≤ i := Nat.mod_le _ _
    have hdvd : 2 ^ ((s.bucketAt pn).depth + 1) ∣
        i - (hash % 2 ^ (s.bucketAt pn).depth + 2 ^ (s.bucketAt pn).depth) := by
      refine ⟨i / 2 ^ ((s.bucketAt pn).depth + 1), ?_⟩
      conv_lhs => rw [← Nat.div_add_mod i (2 ^ ((s.bucketAt pn).depth + 1)), hcong]
      rw [Nat.add_sub_cancel]
    rw [if_pos ⟨hle, hdvd, hi⟩, if_pos hcong]
  · have hnot : ¬(hash % 2 ^ (s.bucketAt pn).depth + 2 ^ (s.bucketAt pn).depth ≤ i ∧
        2 ^ ((s.bucketAt pn).depth + 1) ∣
          i - (hash % 2 ^ (s.bucketAt pn).depth + 2 ^ (s.bucketAt pn).depth) ∧
        i < (preDir s pn).length) := by
      rintro ⟨h1, ⟨q, hq⟩, h3⟩
      apply hcong
      have hi_eq : i = 2 ^ ((s.bucketAt pn).depth + 1) * q +
          (hash % 2 ^ (s.bucketAt pn).depth + 2 ^ (s.bucketAt pn).depth) :=
        (Nat.sub_eq_iff_eq_add h1).mp hq
      rw [hi_eq, Nat.mul_add_mod]
      exact Nat.mod_eq_of_lt hnhlt
    rw [if_neg hnot, if_neg hcong]

/-- The three recursion equations of `Split` in terms of `splitStep`. -/
theorem Split_succ_eq (A : Int → Nat) (s : HashIndexState) (pn hash fuel : Nat) :
    (((splitStep A s pn hash).bucketAt pn).entries.length ≥ BUCKETSIZE →
      Split A (fuel + 1) s pn hash =
        Split A fuel (splitStep A s pn hash) pn
          (hash % 2 ^ (s.bucketAt pn).depth)) ∧
    (((splitStep A s pn hash).bucketAt pn).entries.length < BUCKETSIZE →
      ((splitStep A s pn hash).bucketAt s.store.length).entries.length ≥ BUCKETSIZE →
      Split A (fuel + 1) s pn hash =
        Split A fuel (splitStep A s pn hash) s.store.length
          (hash % 2 ^ (s.bucketAt pn).depth + 2 ^ (s.bucketAt pn).depth)) ∧
    (((splitStep A s pn hash).bucketAt pn).entries.length < BUCKETSIZE →
      ((splitStep A s pn hash).bucketAt s.store.length).entries.length < BUCKETSIZE →
      Split A (fuel + 1) s pn hash = some (splitStep A s pn hash)) := by
  refine ⟨?_, ?_, ?_⟩
  · intro hfull
    simp only [Split, powInt]
    rw [if_pos hfull]
  · intro hnotfull hfull
    simp only [Split, powInt]
    rw [if_neg (by omega), if_pos hfull]
  · intro h1 h2
    simp only [Split, powInt]
    rw [if_neg (by omega), if_neg (by omega)]

/-- A congruence mod `2^g` transfers to any smaller power. -/
theorem mod_pow_congr {a b : Nat} (g l : Nat) (h : a % 2 ^ g = b % 2 ^ g)
    (hl : l ≤ g) : a % 2 ^ l = b % 2 ^ l := by
  have hdvd : (2 : Nat) ^ l ∣ 2 ^ g := pow_dvd_pow 2 hl
  calc a % 2 ^ l = a % 2 ^ g % 2 ^ l := (Nat.mod_mod_of_dvd a hdvd).symm
    _ = b % 2 ^ g % 2 ^ l := by rw [h]
    _ = b % 2 ^ l := Nat.mod_mod_of_dvd b hdvd

/-- A residue mod `2^(d+1)` is the residue mod `2^d`, possibly shifted by
`2^d`. -/
theorem mod_two_pow_succ_cases (x d : Nat) :
    x % 2 ^ (d + 1) = x % 2 ^ d ∨ x % 2 ^ (d + 1) = 2 ^ d + x % 2 ^ d := by
  have h1 : x % 2 ^ (d + 1) % 2 ^ d = x % 2 ^ d :=
    Nat.mod_mod_of_dvd x (pow_dvd_pow 2 (by omega))
  have h2 : x % 2 ^ (d + 1) < 2 ^ (d + 1) :=
    Nat.mod_lt _ (pow_pos (by omega : (0 : ℕ) < 2) _)
  rw [pow_succ] at h2
  by_cases hsmall : x % 2 ^ (d + 1) < 2 ^ d
  · left
    rw [← h1, Nat.mod_eq_of_lt hsmall]
  · right
    have h3 : x % 2 ^ (d + 1) - 2 ^ d < 2 ^ d := by omega
    have h4 : x % 2 ^ (d + 1) % 2 ^ d = (x % 2 ^ (d + 1) - 2 ^ d) % 2 ^ d :=
      Nat.mod_eq_sub_mod (Nat.le_of_not_lt hsmall)
    rw [← h1, h4, Nat.mod_eq_of_lt h3]
    omega

/-- The pre-rewire directory reads as the original directory at the index
reduced mod `2^depth`. -/
theorem preDir_getD (s : HashIndexState) (pn : Nat)
    (hlen : s.buckets.length = 2 ^ s.depth) (i : Nat)
    (hi : i < (preDir s pn).length) :
    (preDir s pn).getD i 0 = s.buckets.getD (i % 2 ^ s.depth) 0 := by
  unfold preDir at hi ⊢
  split at hi
  next hext =>
    rw [if_pos hext]
    rw [List.length_append] at hi
    by_cases hsmall : i < s.buckets.length
    · rw [List.getD_eq_getElem?_getD, List.getElem?_append_left hsmall,
        ← List.getD_eq_getElem?_getD, Nat.mod_eq_of_lt (by omega)]
    · have h1 : s.buckets.length ≤ i := Nat.le_of_not_lt hsmall
      rw [List.getD_eq_getElem?_getD, List.getElem?_append_right h1,
        ← List.getD_eq_getElem?_getD]
      have h2 : i % 2 ^ s.depth = i - s.buckets.length := by
        rw [← hlen, Nat.mod_eq_sub_mod h1, Nat.mod_eq_of_lt (by omega)]
      rw [h2]
  next hext =>
    rw [if_neg hext, Nat.mod_eq_of_lt (by omega)]

/-- `find?` by key commutes with a filter whose predicate holds on every
entry carrying that key. -/
theorem find?_key_filter (es : List (Int × Int)) (w : Int) (p : Int × Int → Bool)
    (hall : ∀ e : Int × Int, e.1 = w → p e = true) :
    (es.filter p).find? (fun e => e.1 = w) = es.find? (fun e => e.1 = w) := by
  induction es with
  | nil => rfl
  | cons e rest ih =>
    by_cases hkey : e.1 = w
    · rw [List.filter_cons, if_pos (hall e hkey)]
      rw [List.find?_cons_of_pos _ (by simp [hkey]),
        List.find?_cons_of_pos _ (by simp [hkey])]
    · by_cases hp : p e = true
      · rw [List.filter_cons, if_pos hp]
        rw [List.find?_cons_of_neg _ (by simp [hkey]),
          List.find?_cons_of_neg _ (by simp [hkey])]
        exact ih
      · rw [List.filter_cons, if_neg hp]
        rw [List.find?_cons_of_neg _ (by simp [hkey])]
        exact ih

/-- Every entry after an in-place value update is an old entry or carries
the updated pair. -/
theorem bucketUpdateEntries_mem (es : List (Int × Int)) (k v : Int) :
    ∀ e ∈ bucketUpdateEntries es k v, e ∈ es ∨ e = (k, v) := by
  induction es with
  | nil => intro e he; cases he
  | cons hd rest ih =>
    intro e he
    simp only [bucketUpdateEntries] at he
    by_cases hk : hd.1 = k
    · rw [if_pos hk] at he
      rcases List.mem_cons.mp he with he | he
      · right; exact he
      · left; exact List.mem_cons_of_mem _ he
    · rw [if_neg hk] at he
      rcases List.mem_cons.mp he with he | he
      · left; rw [he]; exact List.mem_cons_self _ _
      · rcases ih e he with h | h
        · left; exact List.mem_cons_of_mem _ h
        · right; exact h

/-- Every entry surviving a delete was present before. -/
theorem bucketDeleteEntries_mem (es : List (Int × Int)) (k : Int) :
    ∀ e ∈ bucketDeleteEntries es k, e ∈ es := by
  induction es with
  | nil => intro e he; cases he
  | cons hd rest ih =>
    intro e he
    simp only [bucketDeleteEntries] at he
    by_cases hk : hd.1 = k
    · rw [if_pos hk] at he
      exact List.mem_cons_of_mem _ he
    · rw [if_neg hk] at he
      rcases List.mem_cons.mp he with he | he
      · rw [he]; exact List.mem_cons_self _ _
      · exact List.mem_cons_of_mem _ (ih e he)

/-- Precondition for `Split` at bucket page `pn` with insertion hash
`hash`: the page exists, its local depth is bounded by the global depth,
the directory slots pointing to it are exactly those congruent to `hash`
modulo `2^localDepth`, and its entries hash accordingly.  It holds at the
call site inside `Insert` and is maintained by the recursion. -/
def SplitPre (A : Int → Nat) (s : HashIndexState) (pn hash : Nat) : Prop :=
  pn < s.store.length ∧
  (s.bucketAt pn).depth ≤ s.depth ∧
  (∀ j, j < s.buckets.length →
    (s.buckets.getD j 0 = pn ↔
      j % 2 ^ (s.bucketAt pn).depth = hash % 2 ^ (s.bucketAt pn).depth)) ∧
  (∀ e ∈ (s.bucketAt pn).entries,
    A e.1 % 2 ^ (s.bucketAt pn).depth = hash % 2 ^ (s.bucketAt pn).depth)

/-- The master lemma for one split pass: it preserves the directory
invariant, sets up the split precondition for both potential recursive
calls, and leaves every key's lookup result unchanged. -/
theorem splitStep_main (A : Int → Nat) (s : HashIndexState) (pn hash : Nat)
    (hinv : HInv A s) (hpre : SplitPre A s pn hash) :
    HInv A (splitStep A s pn hash) ∧
    SplitPre A (splitStep A s pn hash) pn (hash % 2 ^ (s.bucketAt pn).depth) ∧
    SplitPre A (splitStep A s pn hash) s.store.length
      (hash % 2 ^ (s.bucketAt pn).depth + 2 ^ (s.bucketAt pn).depth) ∧
    (∀ w : Int, HashTableFind A (splitStep A s pn hash) w = HashTableFind A s w) := by
  obtain ⟨hlen, hrange, hdep, hkeys, hshare⟩ := hinv
  obtain ⟨hpn, hdle, hslots, hentries⟩ := hpre
  have hd2 : (0 : Nat) < 2 ^ (s.bucketAt pn).depth := pow_pos (by omega) _
  have holdlt : hash % 2 ^ (s.bucketAt pn).depth < 2 ^ (s.bucketAt pn).depth :=
    Nat.mod_lt _ hd2
  have hnewlt : hash % 2 ^ (s.bucketAt pn).depth + 2 ^ (s.bucketAt pn).depth <
      2 ^ ((s.bucketAt pn).depth + 1) := by
    rw [pow_succ]
    omega
  have hdepth' := splitStep_depth A s pn hash
  have hgdle : s.depth ≤ (splitStep A s pn hash).depth := by
    rw [hdepth']
    split <;> omega
  have hd1le : (s.bucketAt pn).depth + 1 ≤ (splitStep A s pn hash).depth := by
    rw [hdepth']
    split
    next h => omega
    next h => omega
  have hlen' : (splitStep A s pn hash).buckets.length =
      2 ^ (splitStep A s pn hash).depth := by
    rw [splitStep_buckets_length, hdepth']
    unfold preDir
    by_cases hext : (s.bucketAt pn).depth = s.depth
    · rw [if_pos hext, if_pos hext, List.length_append, hlen, pow_succ]
      omega
    · rw [if_neg hext, if_neg hext, hlen]
  have hibar_lt : ∀ i : Nat, i % 2 ^ s.depth < s.buckets.length := by
    intro i
    rw [hlen]
    exact Nat.mod_lt _ (pow_pos (by omega) _)
  have htrans : ∀ (i : Nat) (l : Nat), l ≤ s.depth →
      i % 2 ^ l = (i % 2 ^ s.depth) % 2 ^ l := by
    intro i l hl
    exact (Nat.mod_mod_of_dvd i (pow_dvd_pow 2 hl)).symm
  have hPi_lt : ∀ i : Nat, s.buckets.getD (i % 2 ^ s.depth) 0 < s.store.length :=
    fun i => hrange _ (hibar_lt i)
  have hstore_len' := splitStep_store_length A s pn hash
  have hdir' : ∀ i, i < (splitStep A s pn hash).buckets.length →
      (splitStep A s pn hash).buckets.getD i 0 =
        if i % 2 ^ ((s.bucketAt pn).depth + 1) =
            hash % 2 ^ (s.bucketAt pn).depth + 2 ^ (s.bucketAt pn).depth
        then s.store.length else s.buckets.getD (i % 2 ^ s.depth) 0 := by
    intro i hi
    rw [splitStep_buckets_length] at hi
    rw [splitStep_dir_getD A s pn hash i hi, preDir_getD s pn hlen i hi]
  have hslot_iff : ∀ i : Nat,
      s.buckets.getD (i % 2 ^ s.depth) 0 = pn ↔
        i % 2 ^ (s.bucketAt pn).depth = hash % 2 ^ (s.bucketAt pn).depth := by
    intro i
    rw [hslots (i % 2 ^ s.depth) (hibar_lt i)]
    rw [htrans i _ hdle]
  have hnewimp : ∀ x : Nat,
      x % 2 ^ ((s.bucketAt pn).depth + 1) =
        hash % 2 ^ (s.bucketAt pn).depth + 2 ^ (s.bucketAt pn).depth →
      x % 2 ^ (s.bucketAt pn).depth = hash % 2 ^ (s.bucketAt pn).depth := by
    intro x hx
    have h1 : x % 2 ^ (s.bucketAt pn).depth =
        (x % 2 ^ ((s.bucketAt pn).depth + 1)) % 2 ^ (s.bucketAt pn).depth :=
      (Nat.mod_mod_of_dvd x (pow_dvd_pow 2 (by omega))).symm
    rw [h1, hx, Nat.add_mod_right, Nat.mod_mod_of_dvd hash dvd_rfl]
  have hsplit_cases : ∀ x : Nat,
      x % 2 ^ (s.bucketAt pn).depth = hash % 2 ^ (s.bucketAt pn).depth →
      x % 2 ^ ((s.bucketAt pn).depth + 1) = hash % 2 ^ (s.bucketAt pn).depth ∨
      x % 2 ^ ((s.bucketAt pn).depth + 1) =
        hash % 2 ^ (s.bucketAt pn).depth + 2 ^ (s.bucketAt pn).depth := by
    intro x hx
    rcases mod_two_pow_succ_cases x (s.bucketAt pn).depth with h | h
    · left
      rw [h, hx]
    · right
      rw [h, hx]
      omega
  have hsb_new : ∀ i, i < (splitStep A s pn hash).buckets.length →
      i % 2 ^ ((s.bucketAt pn).depth + 1) =
        hash % 2 ^ (s.bucketAt pn).depth + 2 ^ (s.bucketAt pn).depth →
      (splitStep A s pn hash).slotBucket i =
        ⟨(s.bucketAt pn).depth + 1,
          (s.bucketAt pn).entries.filter
            (fun e => Hasher A e.1 ((s.bucketAt pn).depth + 1) =
              hash % 2 ^ (s.bucketAt pn).depth + 2 ^ (s.bucketAt pn).depth)⟩ := by
    intro i hi hri
    unfold HashIndexState.slotBucket
    rw [hdir' i hi, if_pos hri, splitStep_bucketAt_new]
  have hsb_pn : ∀ i, i < (splitStep A s pn hash).buckets.length →
      ¬i % 2 ^ ((s.bucketAt pn).depth + 1) =
        hash % 2 ^ (s.bucketAt pn).depth + 2 ^ (s.bucketAt pn).depth →
      s.buckets.getD (i % 2 ^ s.depth) 0 = pn →
      (splitStep A s pn hash).slotBucket i =
        ⟨(s.bucketAt pn).depth + 1,
          (s.bucketAt pn).entries.filter
            (fun e => ¬Hasher A e.1 ((s.bucketAt pn).depth + 1) =
              hash % 2 ^ (s.bucketAt pn).depth + 2 ^ (s.bucketAt pn).depth)⟩ := by
    intro i hi hri hpi
    unfold HashIndexState.slotBucket
    rw [hdir' i hi, if_neg hri, hpi, splitStep_bucketAt_old A s pn hash hpn]
  have hsb_other : ∀ i, i < (splitStep A s pn hash).buckets.length →
      ¬i % 2 ^ ((s.bucketAt pn).depth + 1) =
        hash % 2 ^ (s.bucketAt pn).depth + 2 ^ (s.bucketAt pn).depth →
      ¬s.buckets.getD (i % 2 ^ s.depth) 0 = pn →
      (splitStep A s pn hash).slotBucket i = s.slotBucket (i % 2 ^ s.depth) := by
    intro i hi hri hpi
    unfold HashIndexState.slotBucket
    rw [hdir' i hi, if_neg hri]
    exact splitStep_bucketAt_other A s pn hash _ hpi (Nat.ne_of_lt (hPi_lt i))
  have homod : hash % 2 ^ (s.bucketAt pn).depth % 2 ^ ((s.bucketAt pn).depth + 1) =
      hash % 2 ^ (s.bucketAt pn).depth := Nat.mod_eq_of_lt (by omega)
  have hdownimp : ∀ x : Nat,
      x % 2 ^ ((s.bucketAt pn).depth + 1) = hash % 2 ^ (s.bucketAt pn).depth →
      x % 2 ^ (s.bucketAt pn).depth = hash % 2 ^ (s.bucketAt pn).depth := by
    intro x hx
    have h1 : x % 2 ^ (s.bucketAt pn).depth =
        (x % 2 ^ ((s.bucketAt pn).depth + 1)) % 2 ^ (s.bucketAt pn).depth :=
      (Nat.mod_mod_of_dvd x (pow_dvd_pow 2 (by omega))).symm
    rw [h1, hx, Nat.mod_mod_of_dvd hash dvd_rfl]
  have hketoold : ∀ i : Nat,
      ¬i % 2 ^ ((s.bucketAt pn).depth + 1) =
        hash % 2 ^ (s.bucketAt pn).depth + 2 ^ (s.bucketAt pn).depth →
      i % 2 ^ (s.bucketAt pn).depth = hash % 2 ^ (s.bucketAt pn).depth →
      i % 2 ^ ((s.bucketAt pn).depth + 1) = hash % 2 ^ (s.bucketAt pn).depth := by
    intro i hri hi
    rcases hsplit_cases i hi with h | h
    · exact h
    · exact absurd h hri
  refine ⟨⟨hlen', ?_, ?_, ?_, ?_⟩, ⟨?_, ?_, ?_, ?_⟩, ⟨?_, ?_, ?_, ?_⟩, ?_⟩
  · -- range
    intro i hi
    rw [hdir' i hi, hstore_len']
    split
    · omega
    · have := hPi_lt i
      omega
  · -- local depth bounded
    intro i hi
    by_cases hri : i % 2 ^ ((s.bucketAt pn).depth + 1) =
        hash % 2 ^ (s.bucketAt pn).depth + 2 ^ (s.bucketAt pn).depth
    · rw [hsb_new i hi hri]
      exact hd1le
    · by_cases hpi : s.buckets.getD (i % 2 ^ s.depth) 0 = pn
      · rw [hsb_pn i hi hri hpi]
        exact hd1le
      · rw [hsb_other i hi hri hpi]
        exact le_trans (hdep _ (hibar_lt i)) hgdle
  · -- keys hash into their slot
    intro i hi
    by_cases hri : i % 2 ^ ((s.bucketAt pn).depth + 1) =
        hash % 2 ^ (s.bucketAt pn).depth + 2 ^ (s.bucketAt pn).depth
    · rw [hsb_new i hi hri]
      intro e he
      have hp := of_decide_eq_true (List.mem_filter.mp he).2
      show A e.1 % 2 ^ ((s.bucketAt pn).depth + 1) = i % 2 ^ ((s.bucketAt pn).depth + 1)
      unfold Hasher powInt at hp
      rw [hp, hri]
    · by_cases hpi : s.buckets.getD (i % 2 ^ s.depth) 0 = pn
      · rw [hsb_pn i hi hri hpi]
        intro e he
        have hmem := (List.mem_filter.mp he).1
        have hp := of_decide_eq_true (List.mem_filter.mp he).2
        unfold Hasher powInt at hp
        show A e.1 % 2 ^ ((s.bucketAt pn).depth + 1) = i % 2 ^ ((s.bucketAt pn).depth + 1)
        have he1 := hketoold (A e.1) (by simpa using hp) (hentries e hmem)
        have hi1 := hketoold i hri ((hslot_iff i).mp hpi)
        rw [he1, hi1]
      · rw [hsb_other i hi hri hpi]
        intro e he
        have hld : (s.slotBucket (i % 2 ^ s.depth)).depth ≤ s.depth :=
          hdep _ (hibar_lt i)
        rw [htrans i _ hld]
        exact hkeys _ (hibar_lt i) e he
  · -- sharing slots agree modulo the local depth
    intro i j hi hj
    rw [hdir' i hi, hdir' j hj]
    by_cases hri : i % 2 ^ ((s.bucketAt pn).depth + 1) =
        hash % 2 ^ (s.bucketAt pn).depth + 2 ^ (s.bucketAt pn).depth
    · rw [if_pos hri, hsb_new i hi hri]
      by_cases hrj : j % 2 ^ ((s.bucketAt pn).depth + 1) =
          hash % 2 ^ (s.bucketAt pn).depth + 2 ^ (s.bucketAt pn).depth
      · rw [if_pos hrj]
        exact iff_of_true rfl (by rw [hri, hrj])
      · rw [if_neg hrj]
        refine iff_of_false (fun h => absurd h.symm (Nat.ne_of_lt (hPi_lt j))) ?_
        intro h
        exact hrj (by rw [← h, hri])
    · rw [if_neg hri]
      by_cases hpi : s.buckets.getD (i % 2 ^ s.depth) 0 = pn
      · rw [hsb_pn i hi hri hpi]
        have hi1 := hketoold i hri ((hslot_iff i).mp hpi)
        by_cases hrj : j % 2 ^ ((s.bucketAt pn).depth + 1) =
            hash % 2 ^ (s.bucketAt pn).depth + 2 ^ (s.bucketAt pn).depth
        · rw [if_pos hrj]
          refine iff_of_false (Nat.ne_of_lt (hPi_lt i)) ?_
          intro h
          rw [hi1, hrj] at h
          omega
        · rw [if_neg hrj]
          constructor
          · intro h
            have hj1 := hketoold j hrj ((hslot_iff j).mp (by rw [← h, hpi]))
            rw [hi1, hj1]
          · intro h
            rw [hi1] at h
            have hj2 := hdownimp j h.symm
            rw [hpi, (hslot_iff j).mpr hj2]
      · rw [hsb_other i hi hri hpi]
        have hld : (s.slotBucket (i % 2 ^ s.depth)).depth ≤ s.depth :=
          hdep _ (hibar_lt i)
        by_cases hrj : j % 2 ^ ((s.bucketAt pn).depth + 1) =
            hash % 2 ^ (s.bucketAt pn).depth + 2 ^ (s.bucketAt pn).depth
        · rw [if_pos hrj]
          refine iff_of_false (Nat.ne_of_lt (hPi_lt i)) ?_
          intro h
          have hj1 := hnewimp j hrj
          have hjslot := (hslot_iff j).mpr hj1
          rw [htrans i _ hld, htrans j _ hld] at h
          have := (hshare _ _ (hibar_lt i) (hibar_lt j)).mpr h
          rw [hjslot] at this
          exact hpi this
        · rw [if_neg hrj]
          rw [htrans i _ hld, htrans j _ hld]
          exact hshare _ _ (hibar_lt i) (hibar_lt j)
  · -- SplitPre for the recursive call on the old bucket: page exists
    rw [hstore_len']
    omega
  · rw [splitStep_bucketAt_old A s pn hash hpn]
    exact hd1le
  · -- slots of the old bucket after the split
    intro j hj
    rw [splitStep_bucketAt_old A s pn hash hpn, hdir' j hj]
    show _ ↔ j % 2 ^ ((s.bucketAt pn).depth + 1) =
      hash % 2 ^ (s.bucketAt pn).depth % 2 ^ ((s.bucketAt pn).depth + 1)
    rw [homod]
    by_cases hrj : j % 2 ^ ((s.bucketAt pn).depth + 1) =
        hash % 2 ^ (s.bucketAt pn).depth + 2 ^ (s.bucketAt pn).depth
    · rw [if_pos hrj]
      refine iff_of_false (Nat.ne_of_gt (by omega : pn < s.store.length)) ?_
      intro h
      rw [hrj] at h
      omega
    · rw [if_neg hrj]
      constructor
      · intro h
        exact hketoold j hrj ((hslot_iff j).mp h)
      · intro h
        exact (hslot_iff j).mpr (hdownimp j h)
  · -- entries of the old bucket after the split
    rw [splitStep_bucketAt_old A s pn hash hpn]
    intro e he
    have hmem := (List.mem_filter.mp he).1
    have hp := of_decide_eq_true (List.mem_filter.mp he).2
    unfold Hasher powInt at hp
    show A e.1 % 2 ^ ((s.bucketAt pn).depth + 1) =
      hash % 2 ^ (s.bucketAt pn).depth % 2 ^ ((s.bucketAt pn).depth + 1)
    rw [homod]
    exact hketoold (A e.1) (by simpa using hp) (hentries e hmem)
  · -- SplitPre for the recursive call on the new bucket: page exists
    rw [hstore_len']
    omega
  · rw [splitStep_bucketAt_new]
    exact hd1le
  · -- slots of the new bucket
    intro j hj
    rw [splitStep_bucketAt_new, hdir' j hj]
    show _ ↔ j % 2 ^ ((s.bucketAt pn).depth + 1) =
      (hash % 2 ^ (s.bucketAt pn).depth + 2 ^ (s.bucketAt pn).depth) %
        2 ^ ((s.bucketAt pn).depth + 1)
    rw [Nat.mod_eq_of_lt hnewlt]
    by_cases hrj : j % 2 ^ ((s.bucketAt pn).depth + 1) =
        hash % 2 ^ (s.bucketAt pn).depth + 2 ^ (s.bucketAt pn).depth
    · rw [if_pos hrj]
      exact iff_of_true rfl hrj
    · rw [if_neg hrj]
      exact iff_of_false (Nat.ne_of_lt (hPi_lt j)) hrj
  · -- entries of the new bucket
    rw [splitStep_bucketAt_new]
    intro e he
    have hp := of_decide_eq_true (List.mem_filter.mp he).2
    unfold Hasher powInt at hp
    show A e.1 % 2 ^ ((s.bucketAt pn).depth + 1) =
      (hash % 2 ^ (s.bucketAt pn).depth + 2 ^ (s.bucketAt pn).depth) %
        2 ^ ((s.bucketAt pn).depth + 1)
    rw [Nat.mod_eq_of_lt hnewlt]
    exact hp
  · -- lookups are preserved
    intro w
    unfold HashTableFind
    have hwlt' : Hasher A w (splitStep A s pn hash).depth <
        (splitStep A s pn hash).buckets.length := by
      rw [hlen']
      exact Nat.mod_lt _ (pow_pos (by omega) _)
    have hwlt : Hasher A w s.depth < s.buckets.length := by
      rw [hlen]
      exact Nat.mod_lt _ (pow_pos (by omega) _)
    rw [if_pos hwlt', if_pos hwlt]
    have hweq : Hasher A w (splitStep A s pn hash).depth % 2 ^ s.depth =
        Hasher A w s.depth := by
      unfold Hasher powInt
      exact Nat.mod_mod_of_dvd _ (pow_dvd_pow 2 hgdle)
    have hwd1 : Hasher A w (splitStep A s pn hash).depth %
        2 ^ ((s.bucketAt pn).depth + 1) = A w % 2 ^ ((s.bucketAt pn).depth + 1) := by
      unfold Hasher powInt
      exact Nat.mod_mod_of_dvd _ (pow_dvd_pow 2 hd1le)
    by_cases hri : Hasher A w (splitStep A s pn hash).depth %
        2 ^ ((s.bucketAt pn).depth + 1) =
        hash % 2 ^ (s.bucketAt pn).depth + 2 ^ (s.bucketAt pn).depth
    · rw [hsb_new _ hwlt' hri]
      have hw1 : A w % 2 ^ ((s.bucketAt pn).depth + 1) =
          hash % 2 ^ (s.bucketAt pn).depth + 2 ^ (s.bucketAt pn).depth := by
        rw [← hwd1]
        exact hri
      have hw2 : A w % 2 ^ (s.bucketAt pn).depth = hash % 2 ^ (s.bucketAt pn).depth :=
        hnewimp _ hw1
      have hslot : s.buckets.getD (Hasher A w s.depth) 0 = pn := by
        have h3 := (hslot_iff (A w)).mpr hw2
        unfold Hasher powInt
        exact h3
      show _ = (s.slotBucket (Hasher A w s.depth)).entries.find? _
      unfold HashIndexState.slotBucket
      rw [hslot]
      exact find?_key_filter _ w _ (by
        intro e he1
        simp only [decide_eq_true_eq]
        unfold Hasher powInt
        rw [he1]
        exact hw1)
    · by_cases hpi : s.buckets.getD
          (Hasher A w (splitStep A s pn hash).depth % 2 ^ s.depth) 0 = pn
      · rw [hsb_pn _ hwlt' hri hpi]
        have hslot : s.buckets.getD (Hasher A w s.depth) 0 = pn := by
          rw [← hweq]
          exact hpi
        show _ = (s.slotBucket (Hasher A w s.depth)).entries.find? _
        unfold HashIndexState.slotBucket
        rw [hslot]
        refine find?_key_filter _ w _ ?_
        intro e he1
        simp only [decide_eq_true_eq]
        unfold Hasher powInt
        rw [he1]
        intro hcontra
        apply hri
        rw [hwd1]
        exact hcontra
      · rw [hsb_other _ hwlt' hri hpi]
        rw [hweq]

/-- Appending a fresh key's entry makes it the `find?` result when the key
was absent. -/
theorem find?_key_append_absent (es : List (Int × Int)) (k v : Int)
    (habs : ∀ e ∈ es, e.1 ≠ k) :
    (es ++ [(k, v)]).find? (fun e => e.1 = k) = some (k, v) := by
  induction es with
  | nil => simp [List.find?_cons]
  | cons e rest ih =>
    rw [List.cons_append,
      List.find?_cons_of_neg _ (by simp [habs e (List.mem_cons_self _ _)])]
    exact ih (fun e' he' => habs e' (List.mem_cons_of_mem _ he'))

/-- `Split` with any fuel preserves the invariant and every key's lookup
result. -/
theorem Split_preserves (A : Int → Nat) :
    ∀ (fuel : Nat) (s : HashIndexState) (pn hash : Nat), HInv A s →
      SplitPre A s pn hash → ∀ s', Split A fuel s pn hash = some s' →
      HInv A s' ∧ (∀ w, HashTableFind A s' w = HashTableFind A s w) := by
  intro fuel
  induction fuel with
  | zero =>
    intro s pn hash _ _ s' h
    exact absurd h (by simp [Split])
  | succ n ih =>
    intro s pn hash hinv hpre s' hsplit
    obtain ⟨hinv', hpreOld, hpreNew, hfind⟩ := splitStep_main A s pn hash hinv hpre
    obtain ⟨he1, he2, he3⟩ := Split_succ_eq A s pn hash n
    by_cases h1 : ((splitStep A s pn hash).bucketAt pn).entries.length ≥ BUCKETSIZE
    · rw [he1 h1] at hsplit
      obtain ⟨ha, hb⟩ := ih _ _ _ hinv' hpreOld s' hsplit
      exact ⟨ha, fun w => (hb w).trans (hfind w)⟩
    · by_cases h2 : ((splitStep A s pn hash).bucketAt s.store.length).entries.length ≥
          BUCKETSIZE
      · rw [he2 (by omega) h2] at hsplit
        obtain ⟨ha, hb⟩ := ih _ _ _ hinv' hpreNew s' hsplit
        exact ⟨ha, fun w => (hb w).trans (hfind w)⟩
      · rw [he3 (by omega) (by omega)] at hsplit
        obtain rfl := Option.some.inj hsplit
        exact ⟨hinv', hfind⟩

/-- `Insert` preserves the invariant, and when the key was absent from the
index a subsequent `Find` returns exactly the inserted pair. -/
theorem insert_main (A : Int → Nat) (fuel : Nat) (s : HashIndexState) (k v : Int)
    (s' : HashIndexState) (hinv : HInv A s)
    (hins : HashTableInsert A fuel s k v = some s') :
    HInv A s' ∧
    ((∀ i, i < s.buckets.length → ∀ e ∈ (s.slotBucket i).entries, e.1 ≠ k) →
      HashTableFind A s' k = some (k, v)) := by
  obtain ⟨hlen, hrange, hdep, hkeys, hshare⟩ := hinv
  have hhlt : Hasher A k s.depth < s.buckets.length := by
    rw [hlen]
    exact Nat.mod_lt _ (pow_pos (by omega) _)
  have hpnlt : s.buckets.getD (Hasher A k s.depth) 0 < s.store.length :=
    hrange _ hhlt
  set h₀ := Hasher A k s.depth with hh₀
  set pn := s.buckets.getD h₀ 0 with hpn
  set b := s.bucketAt pn with hb
  set s₁ : HashIndexState :=
    { s with store := s.store.set pn ⟨b.depth, b.entries ++ [(k, v)]⟩ } with hs₁
  have hs₁len : s₁.buckets.length = s.buckets.length := rfl
  have hs₁depth : s₁.depth = s.depth := rfl
  have hs₁store : s₁.store.length = s.store.length := by
    simp [hs₁]
  have hbAt : ∀ q, q < s.store.length →
      s₁.bucketAt q = if q = pn then ⟨b.depth, b.entries ++ [(k, v)]⟩
        else s.bucketAt q := by
    intro q hq
    by_cases hqpn : q = pn
    · rw [if_pos hqpn, hqpn]
      show (s.store.set pn ⟨b.depth, b.entries ++ [(k, v)]⟩).getD pn ⟨0, []⟩ = _
      rw [List.getD_eq_getElem?_getD, List.getElem?_set_self (by simpa using hpnlt)]
      rfl
    · rw [if_neg hqpn]
      show (s.store.set pn _).getD q _ = _
      rw [List.getD_eq_getElem?_getD, List.getElem?_set_ne (fun h => hqpn h.symm),
        ← List.getD_eq_getElem?_getD]
      rfl
  have hbAt_pn : s₁.bucketAt pn = ⟨b.depth, b.entries ++ [(k, v)]⟩ := by
    rw [hbAt pn hpnlt, if_pos rfl]
  have hsb₁ : ∀ j, j < s.buckets.length →
      s₁.slotBucket j = if s.buckets.getD j 0 = pn
        then ⟨b.depth, b.entries ++ [(k, v)]⟩ else s.slotBucket j := by
    intro j hj
    show s₁.bucketAt (s.buckets.getD j 0) = _
    rw [hbAt _ (hrange _ hj)]
    rfl
  have hsbdepth : ∀ j, j < s.buckets.length →
      (s₁.slotBucket j).depth = (s.slotBucket j).depth := by
    intro j hj
    rw [hsb₁ j hj]
    split
    next hc =>
      show b.depth = _
      unfold HashIndexState.slotBucket
      rw [hc]
    next hc => rfl
  have hAk : ∀ (l : Nat), l ≤ s.depth → A k % 2 ^ l = h₀ % 2 ^ l := by
    intro l hl
    rw [hh₀]
    unfold Hasher powInt
    exact (Nat.mod_mod_of_dvd (A k) (pow_dvd_pow 2 hl)).symm
  have hbdep : b.depth ≤ s.depth := hdep _ hhlt
  have hkcong : ∀ j, j < s.buckets.length → s.buckets.getD j 0 = pn →
      A k % 2 ^ b.depth = j % 2 ^ b.depth := by
    intro j hj hjpn
    have hsh := (hshare h₀ j hhlt hj).mp (hjpn.trans hpn).symm
    have : (s.slotBucket h₀).depth = b.depth := by
      unfold HashIndexState.slotBucket
      rfl
    rw [this] at hsh
    rw [hAk _ hbdep, hsh]
  have hinv₁ : HInv A s₁ := by
    refine ⟨hs₁len.trans (hlen.trans (by rw [hs₁depth])), ?_, ?_, ?_, ?_⟩
    · intro i hi
      rw [hs₁store]
      exact hrange i hi
    · intro i hi
      rw [hs₁len] at hi
      rw [hsbdepth i hi, hs₁depth]
      exact hdep i hi
    · intro i hi
      rw [hs₁len] at hi
      rw [hsb₁ i hi]
      split
      next hc =>
        intro e he
        rcases List.mem_append.mp he with he | he
        · have h1 := hkeys i hi e (by
            unfold HashIndexState.slotBucket
            rw [hc, ← hb]
            exact he)
          have h2 : (s.slotBucket i).depth = b.depth := by
            unfold HashIndexState.slotBucket
            rw [hc]
          rw [h2] at h1
          exact h1
        · have he' : e = (k, v) := by simpa using he
          subst he'
          exact hkcong i hi hc
      next hc =>
        exact hkeys i hi
    · intro i j hi hj
      rw [hs₁len] at hi hj
      rw [hsbdepth i hi]
      exact hshare i j hi hj
  have hpre₁ : SplitPre A s₁ pn h₀ := by
    refine ⟨by rw [hs₁store]; exact hpnlt, ?_, ?_, ?_⟩
    · rw [hbAt_pn, hs₁depth]
      exact hbdep
    · intro j hj
      rw [hs₁len] at hj
      rw [hbAt_pn]
      show s.buckets.getD j 0 = pn ↔ _
      constructor
      · intro hjpn
        have h1 := hkcong j hj hjpn
        have h2 := hAk b.depth hbdep
        rw [← h1, h2]
      · intro hcong
        have hcong' : j % 2 ^ b.depth = h₀ % 2 ^ b.depth := hcong
        have hsh := (hshare h₀ j hhlt hj).mpr (by
          show h₀ % 2 ^ (s.slotBucket h₀).depth = j % 2 ^ (s.slotBucket h₀).depth
          have hd : (s.slotBucket h₀).depth = b.depth := by
            unfold HashIndexState.slotBucket
            rfl
          rw [hd, hcong'])
        show s.buckets.getD j 0 = pn
        rw [← hsh]
    · rw [hbAt_pn]
      intro e he
      show A e.1 % 2 ^ b.depth = h₀ % 2 ^ b.depth
      rcases List.mem_append.mp he with he | he
      · have h1 := hkeys h₀ hhlt e (by
          unfold HashIndexState.slotBucket
          exact he)
        have h2 : (s.slotBucket h₀).depth = b.depth := by
          unfold HashIndexState.slotBucket
          rfl
        rw [h2] at h1
        exact h1
      · have he' : e = (k, v) := by simpa using he
        subst he'
        exact hAk b.depth hbdep
  have hfind₁ : (∀ i, i < s.buckets.length →
      ∀ e ∈ (s.slotBucket i).entries, e.1 ≠ k) →
      HashTableFind A s₁ k = some (k, v) := by
    intro habs
    unfold HashTableFind
    rw [if_pos (by rw [hs₁depth, hs₁len]; exact hhlt)]
    have hslot : s₁.slotBucket (Hasher A k s₁.depth) =
        ⟨b.depth, b.entries ++ [(k, v)]⟩ := by
      rw [hs₁depth]
      rw [hsb₁ h₀ hhlt, if_pos rfl]
    rw [hs₁depth] at hslot ⊢
    rw [hslot]
    exact find?_key_append_absent _ k v (fun e he => habs h₀ hhlt e (by
      unfold HashIndexState.slotBucket
      exact he))
  unfold HashTableInsert at hins
  by_cases hsplitq : (s.bucketAt (s.buckets.getD (Hasher A k s.depth) 0)).entries.length +
      1 ≥ BUCKETSIZE
  · rw [if_pos (by simpa using hsplitq)] at hins
    obtain ⟨ha, hfnd⟩ := Split_preserves A fuel s₁ pn h₀ hinv₁ hpre₁ s' hins
    exact ⟨ha, fun habs => (hfnd k).trans (hfind₁ habs)⟩
  · rw [if_neg (by simpa using hsplitq)] at hins
    obtain rfl := Option.some.inj hins
    exact ⟨hinv₁, hfind₁⟩

/-- Overwriting the bucket of key `k`'s slot with entries drawn from the
old bucket (or carrying key `k` itself) preserves the invariant; this
covers `Update` and `Delete`. -/
theorem setBucket_preserves (A : Int → Nat) (s : HashIndexState) (k : Int)
    (es' : List (Int × Int)) (hinv : HInv A s)
    (hmem : ∀ e ∈ es',
      e ∈ (s.slotBucket (Hasher A k s.depth)).entries ∨ e.1 = k) :
    HInv A { s with store := (s.store.set (s.buckets.getD (Hasher A k s.depth) 0)
      ⟨(s.slotBucket (Hasher A k s.depth)).depth, es'⟩) } := by
  obtain ⟨hlen, hrange, hdep, hkeys, hshare⟩ := hinv
  have hhlt : Hasher A k s.depth < s.buckets.length := by
    rw [hlen]
    exact Nat.mod_lt _ (pow_pos (by omega) _)
  have hpnlt : s.buckets.getD (Hasher A k s.depth) 0 < s.store.length :=
    hrange _ hhlt
  set h₀ := Hasher A k s.depth with hh₀
  set pn := s.buckets.getD h₀ 0 with hpn
  set b := s.slotBucket h₀ with hb
  set s₁ : HashIndexState := { s with store := s.store.set pn ⟨b.depth, es'⟩ } with hs₁
  have hAk : ∀ (l : Nat), l ≤ s.depth → A k % 2 ^ l = h₀ % 2 ^ l := by
    intro l hl
    rw [hh₀]
    unfold Hasher powInt
    exact (Nat.mod_mod_of_dvd (A k) (pow_dvd_pow 2 hl)).symm
  have hbdep : b.depth ≤ s.depth := hdep _ hhlt
  have hkcong : ∀ j, j < s.buckets.length → s.buckets.getD j 0 = pn →
      A k % 2 ^ b.depth = j % 2 ^ b.depth := by
    intro j hj hjpn
    have hsh := (hshare h₀ j hhlt hj).mp (hjpn.trans hpn).symm
    rw [hAk _ hbdep]
    exact hsh
  have hsb₁ : ∀ j, j < s.buckets.length →
      s₁.slotBucket j = if s.buckets.getD j 0 = pn
        then ⟨b.depth, es'⟩ else s.slotBucket j := by
    intro j hj
    show s₁.bucketAt (s.buckets.getD j 0) = _
    by_cases hqpn : s.buckets.getD j 0 = pn
    · rw [if_pos hqpn, hqpn]
      show (s.store.set pn ⟨b.depth, es'⟩).getD pn ⟨0, []⟩ = _
      rw [List.getD_eq_getElem?_getD, List.getElem?_set_self (by simpa using hpnlt)]
      rfl
    · rw [if_neg hqpn]
      show (s.store.set pn ⟨b.depth, es'⟩).getD _ ⟨0, []⟩ = _
      rw [List.getD_eq_getElem?_getD, List.getElem?_set_ne (fun h => hqpn h.symm),
        ← List.getD_eq_getElem?_getD]
      rfl
  have hsbdepth : ∀ j, j < s.buckets.length →
      (s₁.slotBucket j).depth = (s.slotBucket j).depth := by
    intro j hj
    rw [hsb₁ j hj]
    split
    next hc =>
      show b.depth = _
      rw [hb]
      unfold HashIndexState.slotBucket
      rw [hc]
    next hc => rfl
  refine ⟨hlen, ?_, ?_, ?_, ?_⟩
  · intro i hi
    show s.buckets.getD i 0 < (s.store.set pn ⟨b.depth, es'⟩).length
    rw [List.length_set]
    exact hrange i hi
  · intro i hi
    rw [hsbdepth i hi]
    exact hdep i hi
  · intro i hi
    rw [hsb₁ i hi]
    split
    next hc =>
      intro e he
      show A e.1 % 2 ^ b.depth = i % 2 ^ b.depth
      rcases hmem e he with hin | hk
      · have h1 := hkeys h₀ hhlt e hin
        have h2 := hkeys i hi e (by
          unfold HashIndexState.slotBucket
          rw [hc]
          have : s.slotBucket h₀ = s.bucketAt pn := by
            unfold HashIndexState.slotBucket
            rfl
          rw [← this]
          exact hin)
        have h3 : (s.slotBucket i).depth = b.depth := by
          rw [hb]
          unfold HashIndexState.slotBucket
          rw [hc]
        rw [h3] at h2
        exact h2
      · rw [hk]
        exact hkcong i hi hc
    next hc =>
      exact hkeys i hi
  · intro i j hi hj
    rw [hsbdepth i hi]
    exact hshare i j hi hj

/-- `Update` preserves the directory invariant. -/
theorem update_preserves (A : Int → Nat) (s : HashIndexState) (k v : Int)
    (s' : HashIndexState) (hinv : HInv A s)
    (h : HashTableUpdate A s k v = some s') : HInv A s' := by
  simp only [HashTableUpdate] at h
  split at h
  next hc =>
    obtain rfl := Option.some.inj h
    have hmem : ∀ e ∈ bucketUpdateEntries
        (s.bucketAt (s.buckets.getD (Hasher A k s.depth) 0)).entries k v,
        e ∈ (s.slotBucket (Hasher A k s.depth)).entries ∨ e.1 = k := by
      intro e he
      rcases bucketUpdateEntries_mem _ k v e he with h1 | h1
      · left
        exact h1
      · right
        rw [h1]
    exact setBucket_preserves A s k _ hinv hmem
  next hc => cases h

/-- `Delete` preserves the directory invariant. -/
theorem delete_preserves (A : Int → Nat) (s : HashIndexState) (k : Int)
    (s' : HashIndexState) (hinv : HInv A s)
    (h : HashTableDelete A s k = some s') : HInv A s' := by
  simp only [HashTableDelete] at h
  split at h
  next hc =>
    obtain rfl := Option.some.inj h
    have hmem : ∀ e ∈ bucketDeleteEntries
        (s.bucketAt (s.buckets.getD (Hasher A k s.depth) 0)).entries k,
        e ∈ (s.slotBucket (Hasher A k s.depth)).entries ∨ e.1 = k := by
      intro e he
      left
      exact bucketDeleteEntries_mem _ k e he
    exact setBucket_preserves A s k _ hinv hmem
  next hc => cases h

/-- Every state reachable by hash-index operations satisfies the directory
invariant. -/
theorem reachable_HInv (A : Int → Nat) (s : HashIndexState)
    (h : HashReachable A s) : HInv A s := by
  induction h with
  | init =>
    refine ⟨by decide, by decide, by decide, ?_, ?_⟩
    · intro i hi e he
      exfalso
      have hi4 : i < 4 := hi
      have hnil : (NewHashTable.slotBucket i).entries = [] := by
        interval_cases i <;> rfl
      rw [hnil] at he
      cases he
    · intro i j hi hj
      have hi4 : i < 4 := hi
      have hj4 : j < 4 := hj
      interval_cases i <;> interval_cases j <;> decide
  | insert hr hins ih => exact (insert_main A _ _ _ _ _ ih hins).1
  | update hr hupd ih => exact update_preserves A _ _ _ _ ih hupd
  | delete hr hdel ih => exact delete_preserves A _ _ _ ih hdel

/-- C2 (amended): splitting the bucket at page `pn` of local depth `d` with
insertion hash `hash` (so `oldHash = hash mod 2^d`, `newHash = oldHash +
2^d`, and the new bucket is allocated at the next page number): every
entry whose hash at depth `d+1` equals `newHash` moves to the new bucket
and the others stay, in order; every directory slot `i` with
`i ≡ newHash (mod 2^(d+1))` is rewired to the new bucket and no other slot
changes (relative to the directory after the conditional doubling); and if
the old bucket is still full the split recurses on it, else if the new
bucket is still full the split recurses on that one, else the split
returns. -/
theorem split_behavior (A : Int → Nat) (s : HashIndexState)
    (pn hash fuel d oldHash newHash newPN : Nat)
    (hd : d = (s.bucketAt pn).depth) (ho : oldHash = hash % 2 ^ d)
    (hn : newHash = oldHash + 2 ^ d) (hnewPN : newPN = s.store.length)
    (hpn : pn < s.store.length) :
    ((splitStep A s pn hash).bucketAt newPN).entries =
      (s.bucketAt pn).entries.filter (fun e => Hasher A e.1 (d + 1) = newHash) ∧
    ((splitStep A s pn hash).bucketAt pn).entries =
      (s.bucketAt pn).entries.filter (fun e => ¬Hasher A e.1 (d + 1) = newHash) ∧
    ((splitStep A s pn hash).bucketAt newPN).depth = d + 1 ∧
    ((splitStep A s pn hash).bucketAt pn).depth = d + 1 ∧
    (∀ i, i < (splitStep A s pn hash).buckets.length →
      (splitStep A s pn hash).buckets.getD i 0 =
        if i % 2 ^ (d + 1) = newHash then newPN else (preDir s pn).getD i 0) ∧
    (((splitStep A s pn hash).bucketAt pn).entries.length ≥ BUCKETSIZE →
      Split A (fuel + 1) s pn hash = Split A fuel (splitStep A s pn hash) pn oldHash) ∧
    (((splitStep A s pn hash).bucketAt pn).entries.length < BUCKETSIZE →
      ((splitStep A s pn hash).bucketAt newPN).entries.length ≥ BUCKETSIZE →
      Split A (fuel + 1) s pn hash =
        Split A fuel (splitStep A s pn hash) newPN newHash) ∧
    (((splitStep A s pn hash).bucketAt pn).entries.length < BUCKETSIZE →
      ((splitStep A s pn hash).bucketAt newPN).entries.length < BUCKETSIZE →
      Split A (fuel + 1) s pn hash = some (splitStep A s pn hash)) := by
  subst hd ho hn hnewPN
  obtain ⟨hr1, hr2, hr3⟩ := Split_succ_eq A s pn hash fuel
  refine ⟨by rw [splitStep_bucketAt_new], by rw [splitStep_bucketAt_old A s pn hash hpn],
    by rw [splitStep_bucketAt_new], by rw [splitStep_bucketAt_old A s pn hash hpn],
    ?_, hr1, hr2, hr3⟩
  intro i hi
  rw [splitStep_buckets_length] at hi
  exact splitStep_dir_getD A s pn hash i hi

/-- A concrete model hasher used for concrete executions: the absolute
value of the key stands in for the xxhash mix (any total function is a
legitimate instance of the abstracted hash). -/
def Am (k : Int) : Nat := k.natAbs

/-- C8 (amended): at every point between hash-index operations (i.e. in
every reachable state), for every directory slot `i`, every key stored in
the bucket slot `i` points to satisfies
`Hasher(key, globalDepth) ≡ i (mod 2^localDepth)`, where `localDepth` is
that bucket's local depth, and `localDepth ≤ globalDepth`. -/
theorem hash_slot_keys_mod_localDepth (A : Int → Nat) (s : HashIndexState)
    (h : HashReachable A s) :
    ∀ i, i < s.buckets.length →
      (s.slotBucket i).depth ≤ s.depth ∧
      ∀ e ∈ (s.slotBucket i).entries,
        Hasher A e.1 s.depth % 2 ^ (s.slotBucket i).depth =
          i % 2 ^ (s.slotBucket i).depth := by
  obtain ⟨hlen, hrange, hdep, hkeys, hshare⟩ := reachable_HInv A s h
  intro i hi
  refine ⟨hdep i hi, ?_⟩
  intro e he
  have h1 := hkeys i hi e he
  unfold Hasher powInt
  rw [Nat.mod_mod_of_dvd _ (pow_dvd_pow 2 (hdep i hi))]
  exact h1

/-- Witness for C8 at the freshly-created table, slot 1. -/
theorem hash_slot_keys_mod_localDepth_witness :
    (NewHashTable.slotBucket 1).depth ≤ NewHashTable.depth ∧
    ∀ e ∈ (NewHashTable.slotBucket 1).entries,
      Hasher Am e.1 NewHashTable.depth % 2 ^ (NewHashTable.slotBucket 1).depth =
        1 % 2 ^ (NewHashTable.slotBucket 1).depth :=
  hash_slot_keys_mod_localDepth Am NewHashTable HashReachable.init 1 (by decide)

/-- 203 keys hashing to slot 1 at depth 2: inserting them overflows the
bucket of slot 1 and doubles the directory to depth 3. -/
def c8keys : List Int := (List.range 203).map (fun n => (4 * n + 1 : Int))

/-- A concrete operation sequence: fill slot 1's bucket until it splits
(doubling the directory, so slots 2 and 6 now share bucket page 2), then
insert key 6 (which hashes to slot 6 at depth 3). -/
def c8CexState : Option HashIndexState :=
  (c8keys ++ [6]).foldl
    (fun acc k => acc.bind (fun s => HashTableInsert Am 5 s k k)) (some NewHashTable)

/-- The property claimed by C8, as an executable check: every key of every
slot's bucket hashes (at global depth) to exactly that slot. -/
def slotKeysOkB (A : Int → Nat) (s : HashIndexState) : Bool :=
  (List.range s.buckets.length).all (fun i =>
    (s.slotBucket i).entries.all (fun e => Hasher A e.1 s.depth == i))

/-- C8, original wording, refuted: after the concrete insert sequence
`c8CexState` (global depth 3), directory slot 2 points to the same bucket
as slot 6; that bucket holds key 6, and `Hasher(6, 3) = 6 ≠ 2`, so the
claimed equality `Hasher(key, globalDepth) == i` fails at slot `i = 2`.
Slots only agree with their keys' hashes modulo the bucket's local
depth. -/
theorem hash_slot_key_globalDepth_cex :
    (c8CexState.map (slotKeysOkB Am)) = some false ∧
    (c8CexState.map (fun s =>
      (s.slotBucket 2).entries.any (fun e => e.1 = 6) &&
        (decide (Hasher Am 6 s.depth = 6) && decide (s.depth = 3)))) = some true := by
  constructor
  · decide
  · decide

/-- 204 entries for the C2 counterexample bucket: 102 keys hashing to
residue 1 and 102 keys hashing to residue 3 at depth 2. -/
def c2es : List (Int × Int) :=
  List.replicate 102 ((1 : Int), (1 : Int)) ++ List.replicate 102 ((3 : Int), (3 : Int))

/-- The C2 counterexample state: global depth 3, directory
`[0,1,2,1,4,1,6,1]` (slots 1,3,5,7 share the overflowing bucket at page 1,
local depth 1), reachable in principle after the even-residue buckets have
split twice. -/
def c2state : HashIndexState :=
  { depth := 3
    buckets := [0, 1, 2, 1, 4, 1, 6, 1]
    store := [⟨3, []⟩, ⟨1, c2es⟩, ⟨3, []⟩, ⟨3, []⟩, ⟨3, []⟩, ⟨3, []⟩, ⟨3, []⟩] }

/-- C2, original wording, refuted: the bucket at page 1 (local depth
`d = 1`, 204 ≥ BUCKETSIZE entries) is split with insertion hash 3, so
`oldHash = 1` and `newHash = 3`; directory slot 5 satisfies
`5 ≡ newHash (mod 2^oldDepth)` yet after the split it still points to the
old bucket (page 1) and not to the new bucket (page 7 — where slot 3, which
is ≡ newHash mod 2^(d+1), does get rewired): the code's loop steps by
`2^(d+1)`, not `2^d` (table.go:142-147). -/
theorem split_rewire_mod_oldDepth_cex :
    (c2state.bucketAt 1).depth = 1 ∧
    BUCKETSIZE ≤ (c2state.bucketAt 1).entries.length ∧
    (5 : Nat) % 2 ^ 1 = 3 % 2 ^ 1 ∧
    c2state.store.length = 7 ∧
    (Split Am 1 c2state 1 3).map (fun s => s.buckets.getD 5 0) = some 1 ∧
    (Split Am 1 c2state 1 3).map (fun s => s.buckets.getD 3 0) = some 7 := by
  refine ⟨rfl, by decide, rfl, rfl, by decide, by decide⟩

/-- Witness for C2 at the concrete split of `c2state`'s bucket 1: the split
redistributes the 204 entries 102/102 and returns without recursing. -/
theorem split_behavior_witness :
    ((splitStep Am c2state 1 3).bucketAt 7).entries.length = 102 ∧
    ((splitStep Am c2state 1 3).bucketAt 1).entries.length = 102 ∧
    Split Am 1 c2state 1 3 = some (splitStep Am c2state 1 3) := by
  obtain ⟨h1, h2, h3, h4, h5, h6, h7, h8⟩ :=
    split_behavior Am c2state 1 3 0 1 1 3 7 rfl rfl rfl rfl (by decide)
  refine ⟨?_, ?_, h8 (by decide) (by decide)⟩
  · rw [h1]
    decide
  · rw [h2]
    decide

/-- Deleting an absent key leaves the entries unchanged. -/
theorem bucketDeleteEntries_absent (es : List (Int × Int)) (k : Int)
    (h : es.any (fun e => e.1 = k) = false) : bucketDeleteEntries es k = es := by
  induction es with
  | nil => rfl
  | cons e rest ih =>
    rw [List.any_cons] at h
    have h1 : ¬(e.1 = k) := by
      intro hc
      simp [hc] at h
    have h2 : rest.any (fun e => e.1 = k) = false := by
      rcases Bool.or_eq_false_iff.mp h with ⟨_, h3⟩
      exact h3
    unfold bucketDeleteEntries
    rw [if_neg h1, ih h2]

/-- C6 (amended): the recovery forward pass `Redo` re-applies Edit records
such that: redoing an INSERT whose key already exists falls back to an
update of that key; redoing an UPDATE whose key is missing falls back to an
insert; and redoing a DELETE whose key is missing is a no-op returning no
error on a B+ tree table, while on a hash table it fails with the bucket's
key-not-found error, which `Redo` returns.  Stated for any database in
which the target table exists. -/
theorem redo_fallbacks (d : DBState) (tx : TxId) (tbl : String) (t : TableM)
    (k oldv newv : Int) (htbl : d.lookup tbl = some t) :
    (t.data.any (fun e => e.1 = k) = true →
      Redo d (.edit tx tbl .insert k oldv newv) =
        some (dbSetTable d tbl ⟨t.kind, bucketUpdateEntries t.data k newv⟩)) ∧
    (t.data.any (fun e => e.1 = k) = false →
      Redo d (.edit tx tbl .update k oldv newv) =
        some (dbSetTable d tbl ⟨t.kind, t.data ++ [(k, newv)]⟩)) ∧
    (t.data.any (fun e => e.1 = k) = false → t.kind = .btree →
      Redo d (.edit tx tbl .delete k oldv newv) = some (dbSetTable d tbl t)) ∧
    (t.data.any (fun e => e.1 = k) = false → t.kind = .hash →
      Redo d (.edit tx tbl .delete k oldv newv) = none) := by
  obtain ⟨tk, td⟩ := t
  refine ⟨fun hin => ?_, fun hout => ?_, fun hout hkind => ?_, fun hout hkind => ?_⟩
  · simp only [TableM.data] at hin
    simp [Redo, dbHandleInsert, dbHandleUpdate, htbl, hin]
  · simp only [TableM.data] at hout
    simp [Redo, dbHandleUpdate, dbHandleInsert, htbl, hout]
  · have hk2 : tk = IndexTypeM.btree := hkind
    subst hk2
    simp only [TableM.data] at hout
    simp [Redo, dbHandleDelete, htbl, bucketDeleteEntries_absent td k hout]
  · have hk2 : tk = IndexTypeM.hash := hkind
    subst hk2
    simp only [TableM.data] at hout
    simp [Redo, dbHandleDelete, htbl, hout]

/-- C6, original wording, refuted: redoing a DELETE of a missing key is not
always an error-free no-op — on a hash table the bucket's key-not-found
error comes back through `HandleDelete` and `Redo` returns it. -/
theorem redo_delete_missing_hash_cex :
    Redo [("h", ⟨.hash, [(1, 10)]⟩)] (.edit 7 "h" .delete 2 0 0) = none := by
  decide

/-- Witness for C6: a one-table database holding `{(1, 10)}`; redo-insert
of key 1 updates it, redo-update of key 2 inserts it, redo-delete of key 2
on the B+ tree table is a no-op. -/
theorem redo_fallbacks_witness :
    (Redo [("t", ⟨.btree, [(1, 10)]⟩)] (.edit 7 "t" .insert 1 0 99) =
      some [("t", ⟨.btree, [(1, 99)]⟩)]) ∧
    (Redo [("t", ⟨.btree, [(1, 10)]⟩)] (.edit 7 "t" .update 2 0 42) =
      some [("t", ⟨.btree, [(1, 10), (2, 42)]⟩)]) ∧
    (Redo [("t", ⟨.btree, [(1, 10)]⟩)] (.edit 7 "t" .delete 2 0 0) =
      some [("t", ⟨.btree, [(1, 10)]⟩)]) := by
  have h := redo_fallbacks [("t", ⟨.btree, [(1, 10)]⟩)] 7 "t" ⟨.btree, [(1, 10)]⟩
    1 0 99 (by rfl)
  have h2 := redo_fallbacks [("t", ⟨.btree, [(1, 10)]⟩)] 7 "t" ⟨.btree, [(1, 10)]⟩
    2 0 42 (by rfl)
  refine ⟨?_, ?_, ?_⟩
  · simpa [dbSetTable, bucketUpdateEntries] using h.1 (by decide)
  · simpa [dbSetTable] using h2.2.1 (by decide)
  · simpa [dbSetTable] using h2.2.2.1 (by decide) rfl

/-- C3: whenever a leaf insert leaves the leaf with more than
`ENTRIES_PER_LEAF_NODE` entries, the leaf splits at `midpoint = numKeys / 2`
(computed on the post-insert entry list): the new right leaf, placed on the
fresh page, receives exactly the entries at indices `[midpoint, numKeys)`,
the sibling pointers are rewired so the new leaf sits between the splitting
leaf and its former successor, and the promoted separator key is the first
key of the right node. -/
theorem leaf_insert_overflow_split (node : LeafNodeM) (key value newPN : Int)
    (hpos : ¬(leafSearch node.entries key < node.entries.length ∧
      (node.entries.getD (leafSearch node.entries key) (0, 0)).1 = key))
    (hover : (insertAt (leafSearch node.entries key) (key, value) node.entries).length >
      ENTRIES_PER_LEAF_NODE) :
    leafInsertM node key value false newPN =
      (⟨node.pagenum,
        (insertAt (leafSearch node.entries key) (key, value) node.entries).take
          ((insertAt (leafSearch node.entries key) (key, value) node.entries).length / 2),
        newPN⟩,
       some ⟨newPN,
        (insertAt (leafSearch node.entries key) (key, value) node.entries).drop
          ((insertAt (leafSearch node.entries key) (key, value) node.entries).length / 2),
        node.rightSiblingPN⟩,
       ⟨true,
        (((insertAt (leafSearch node.entries key) (key, value) node.entries).drop
          ((insertAt (leafSearch node.entries key) (key, value) node.entries).length / 2)).headD
            (0, 0)).1,
        node.pagenum, newPN, none⟩) := by
  unfold leafInsertM
  rw [if_neg hpos]
  simp only [Bool.false_eq_true, if_false]
  rw [if_pos hover]
  rfl

/-- Witness for C3: a full leaf of 202 entries `(0,0) … (201,201)` on page 7
with right sibling 9; inserting key 500 (value 1) overflows the leaf, which
splits at midpoint 101 with the new right leaf on page 11. -/
theorem leaf_insert_overflow_split_witness :
    (¬(leafSearch ((List.range 202).map (fun n => ((n : Int), (n : Int)))) 500 <
        ((List.range 202).map (fun n => ((n : Int), (n : Int)))).length ∧
      (((List.range 202).map (fun n => ((n : Int), (n : Int)))).getD
        (leafSearch ((List.range 202).map (fun n => ((n : Int), (n : Int)))) 500) (0, 0)).1 =
          500)) ∧
    (insertAt (leafSearch ((List.range 202).map (fun n => ((n : Int), (n : Int)))) 500)
      (500, 1) ((List.range 202).map (fun n => ((n : Int), (n : Int))))).length >
        ENTRIES_PER_LEAF_NODE ∧
    leafInsertM ⟨7, (List.range 202).map (fun n => ((n : Int), (n : Int))), 9⟩ 500 1 false 11 =
      (⟨7,
        (insertAt (leafSearch ((List.range 202).map (fun n => ((n : Int), (n : Int)))) 500)
          (500, 1) ((List.range 202).map (fun n => ((n : Int), (n : Int))))).take
          ((insertAt (leafSearch ((List.range 202).map (fun n => ((n : Int), (n : Int)))) 500)
            (500, 1) ((List.range 202).map (fun n => ((n : Int), (n : Int))))).length / 2),
        11⟩,
       some ⟨11,
        (insertAt (leafSearch ((List.range 202).map (fun n => ((n : Int), (n : Int)))) 500)
          (500, 1) ((List.range 202).map (fun n => ((n : Int), (n : Int))))).drop
          ((insertAt (leafSearch ((List.range 202).map (fun n => ((n : Int), (n : Int)))) 500)
            (500, 1) ((List.range 202).map (fun n => ((n : Int), (n : Int))))).length / 2),
        9⟩,
       ⟨true,
        (((insertAt (leafSearch ((List.range 202).map (fun n => ((n : Int), (n : Int)))) 500)
          (500, 1) ((List.range 202).map (fun n => ((n : Int), (n : Int))))).drop
          ((insertAt (leafSearch ((List.range 202).map (fun n => ((n : Int), (n : Int)))) 500)
            (500, 1) ((List.range 202).map (fun n => ((n : Int), (n : Int))))).length / 2)).headD
              (0, 0)).1,
        7, 11, none⟩) := by
  refine ⟨by decide, by decide, ?_⟩
  exact leaf_insert_overflow_split ⟨7, (List.range 202).map (fun n => ((n : Int), (n : Int))), 9⟩
    500 1 11 (by decide) (by decide)

/-! ### B+ tree search and list lemmas -/

/-- `findIdx` characterization, `getD` form: if everything before `j` fails
the predicate and `j` (when in range) satisfies it, the search returns
`j`. -/
theorem findIdx_getD_eq {α : Type} (p : α → Bool) (l : List α) (d : α) (j : Nat)
    (hj : j ≤ l.length)
    (hbefore : ∀ i, i < j → p (l.getD i d) = false)
    (hat : j < l.length → p (l.getD j d) = true) : l.findIdx p = j := by
  rcases Nat.lt_or_ge j l.length with hlt | hge
  · refine (List.findIdx_eq hlt).mpr ⟨?_, ?_⟩
    · have h1 := hat hlt
      rwa [List.getD_eq_getElem _ _ hlt] at h1
    · intro i hij
      have hi : i < l.length := lt_trans hij hlt
      have h1 := hbefore i hij
      rwa [List.getD_eq_getElem _ _ hi] at h1
  · have hjl : j = l.length := le_antisymm hj hge
    subst hjl
    have h1 : l.findIdx p ≤ l.length := List.findIdx_le_length p
    rcases Nat.lt_or_ge (l.findIdx p) l.length with hlt | hge2
    · exfalso
      have h2 : p (l.get ⟨l.findIdx p, hlt⟩) = true := List.findIdx_get
      rw [List.get_eq_getElem] at h2
      have h3 := hbefore (l.findIdx p) hlt
      rw [List.getD_eq_getElem _ _ hlt] at h3
      rw [h3] at h2
      exact absurd h2 (by simp)
    · omega

/-- Positions before the `findIdx` result fail the predicate, `getD` form. -/
theorem findIdx_getD_before {α : Type} (p : α → Bool) (l : List α) (d : α) (i : Nat)
    (h : i < l.findIdx p) (hi : i < l.length) : p (l.getD i d) = false := by
  rw [List.getD_eq_getElem _ _ hi]
  exact List.not_of_lt_findIdx h

/-- An in-range `findIdx` result satisfies the predicate, `getD` form. -/
theorem findIdx_getD_found {α : Type} (p : α → Bool) (l : List α) (d : α)
    (h : l.findIdx p < l.length) : p (l.getD (l.findIdx p) d) = true := by
  rw [List.getD_eq_getElem _ _ h]
  have h2 : p (l.get ⟨l.findIdx p, h⟩) = true := List.findIdx_get
  rwa [List.get_eq_getElem] at h2

/-- The leaf search never runs past the entry count. -/
theorem leafSearch_le (es : List (Int × Int)) (k : Int) : leafSearch es k ≤ es.length :=
  List.findIdx_le_length _

/-- The internal search never runs past the key count. -/
theorem internalSearch_le (keys : List Int) (k : Int) : internalSearch keys k ≤ keys.length :=
  List.findIdx_le_length _

/-- Entries strictly before the leaf-search position have smaller keys. -/
theorem leafSearch_before (es : List (Int × Int)) (k : Int) (i : Nat)
    (h : i < leafSearch es k) (hi : i < es.length) : (es.getD i (0, 0)).1 < k := by
  unfold leafSearch at h
  have h1 := findIdx_getD_before _ es (0, 0) i h hi
  simpa using h1

/-- The entry at an in-range leaf-search position has key at least `k`. -/
theorem leafSearch_found (es : List (Int × Int)) (k : Int)
    (h : leafSearch es k < es.length) : k ≤ (es.getD (leafSearch es k) (0, 0)).1 := by
  unfold leafSearch at h ⊢
  have h1 := findIdx_getD_found _ es (0, 0) h
  simpa using h1

/-- Keys strictly before the internal-search position are at most `k`. -/
theorem internalSearch_before (keys : List Int) (k : Int) (i : Nat)
    (h : i < internalSearch keys k) (hi : i < keys.length) : keys.getD i 0 ≤ k := by
  unfold internalSearch at h
  have h1 := findIdx_getD_before _ keys 0 i h hi
  simpa using h1

/-- The key at an in-range internal-search position exceeds `k`. -/
theorem internalSearch_found (keys : List Int) (k : Int)
    (h : internalSearch keys k < keys.length) : k < keys.getD (internalSearch keys k) 0 := by
  unfold internalSearch at h ⊢
  have h1 := findIdx_getD_found _ keys 0 h
  simpa using h1

/-- Characterization of the leaf search. -/
theorem leafSearch_eq (es : List (Int × Int)) (k : Int) (j : Nat) (hj : j ≤ es.length)
    (hbefore : ∀ i, i < j → (es.getD i (0, 0)).1 < k)
    (hat : j < es.length → k ≤ (es.getD j (0, 0)).1) : leafSearch es k = j := by
  unfold leafSearch
  refine findIdx_getD_eq _ es (0, 0) j hj (fun i hij => by simpa using hbefore i hij)
    (fun hjl => by simpa using hat hjl)

/-- Characterization of the internal search. -/
theorem internalSearch_eq (keys : List Int) (k : Int) (j : Nat) (hj : j ≤ keys.length)
    (hbefore : ∀ i, i < j → keys.getD i 0 ≤ k)
    (hat : j < keys.length → k < keys.getD j 0) : internalSearch keys k = j := by
  unfold internalSearch
  refine findIdx_getD_eq _ keys 0 j hj (fun i hij => by simpa using hbefore i hij)
    (fun hjl => by simpa using hat hjl)

/-- Length after an in-range `insertAt`. -/
theorem insertAt_length {α : Type} (n : Nat) (a : α) (l : List α) (hn : n ≤ l.length) :
    (insertAt n a l).length = l.length + 1 := by
  simp [insertAt]
  omega

/-- `getD` before the insertion point. -/
theorem insertAt_getD_lt {α : Type} (n : Nat) (a : α) (l : List α) (d : α) (i : Nat)
    (hi : i < n) (hn : n ≤ l.length) : (insertAt n a l).getD i d = l.getD i d := by
  unfold insertAt
  rw [List.getD_eq_getElem?_getD, List.getD_eq_getElem?_getD,
    List.getElem?_append_left (by simp; omega), List.getElem?_take_of_lt hi]

/-- `getD` at the insertion point. -/
theorem insertAt_getD_self {α : Type} (n : Nat) (a : α) (l : List α) (d : α)
    (hn : n ≤ l.length) : (insertAt n a l).getD n d = a := by
  unfold insertAt
  have hlen : (l.take n).length = n := by simp; omega
  rw [List.getD_eq_getElem?_getD, List.getElem?_append_right (by omega)]
  simp [hlen]

/-- `getD` past the insertion point. -/
theorem insertAt_getD_gt {α : Type} (n : Nat) (a : α) (l : List α) (d : α) (i : Nat)
    (hi : n < i) (hn : n ≤ l.length) : (insertAt n a l).getD i d = l.getD (i - 1) d := by
  unfold insertAt
  have hlen : (l.take n).length = n := by simp; omega
  rw [List.getD_eq_getElem?_getD, List.getD_eq_getElem?_getD,
    List.getElem?_append_right (by omega), hlen]
  have h1 : i - n = (i - n - 1) + 1 := by omega
  rw [h1]
  simp only [List.getElem?_cons_succ]
  rw [List.getElem?_drop l n (i - n - 1)]
  have h2 : n + (i - n - 1) = i - 1 := by omega
  rw [h2]

/-- Members of an in-range `insertAt` are the new element or old members. -/
theorem insertAt_mem {α : Type} (n : Nat) (a : α) (l : List α) (x : α)
    (hx : x ∈ insertAt n a l) : x = a ∨ x ∈ l := by
  unfold insertAt at hx
  rcases List.mem_append.mp hx with h1 | h1
  · exact Or.inr (List.take_subset n l h1)
  · rcases List.mem_cons.mp h1 with h2 | h2
    · exact Or.inl h2
    · exact Or.inr (List.drop_subset n l h2)

/-- `Pairwise` is preserved by inserting an element related correctly to the
prefix and the suffix. -/
theorem pairwise_insertAt {α : Type} (R : α → α → Prop) (n : Nat) (a : α) (l : List α)
    (hl : List.Pairwise R l)
    (h1 : ∀ x ∈ l.take n, R x a) (h2 : ∀ x ∈ l.drop n, R a x) :
    List.Pairwise R (insertAt n a l) := by
  unfold insertAt
  rw [List.pairwise_append]
  have hl2 : List.Pairwise R (l.take n ++ l.drop n) := by rwa [List.take_append_drop]
  rw [List.pairwise_append] at hl2
  refine ⟨hl2.1, ?_, ?_⟩
  · rw [List.pairwise_cons]
    exact ⟨h2, hl2.2.1⟩
  · intro x hx b hb
    rcases List.mem_cons.mp hb with rfl | hb2
    · exact h1 x hx
    · exact hl2.2.2 x hx b hb2

/-- Setting an index to the value it already holds is the identity. -/
theorem set_getD_self {α : Type} (l : List α) (i : Nat) (d : α) (h : i < l.length) :
    l.set i (l.getD i d) = l := by
  apply List.ext_getElem?
  intro j
  by_cases hj : j = i
  · subst hj
    rw [List.getElem?_set_self (by exact h), List.getD_eq_getElem _ _ h,
      List.getElem?_eq_getElem h]
  · exact List.getElem?_set_ne (fun hh => hj hh.symm)

/-! ### B+ tree bounds plumbing -/

/-- A strict lower bound of a child interval widens to the node's. -/
theorem lbStrict_widen (lo : Option Int) (keys : List Int) (i : Nat) (x : Int)
    (hkeys : ∀ j, j < keys.length → lbStrict lo (keys.getD j 0))
    (hi : i ≤ keys.length) (h : lbStrict (childLo lo keys i) x) : lbStrict lo x := by
  unfold childLo at h
  by_cases h0 : i = 0
  · rwa [if_pos h0] at h
  · rw [if_neg h0] at h
    have h1 := hkeys (i - 1) (by omega)
    cases lo with
    | none => trivial
    | some lv =>
      have h2 : lv < keys.getD (i - 1) 0 := h1
      have h3 : keys.getD (i - 1) 0 < x := h
      exact lt_trans h2 h3

/-- A lax lower bound of a child interval widens to the node's. -/
theorem lbOK_widen (lo : Option Int) (keys : List Int) (i : Nat) (x : Int)
    (hkeys : ∀ j, j < keys.length → lbStrict lo (keys.getD j 0))
    (hi : i ≤ keys.length) (h : lbOK (childLo lo keys i) x) : lbOK lo x := by
  unfold childLo at h
  by_cases h0 : i = 0
  · rwa [if_pos h0] at h
  · rw [if_neg h0] at h
    have h1 := hkeys (i - 1) (by omega)
    cases lo with
    | none => trivial
    | some lv =>
      have h2 : lv < keys.getD (i - 1) 0 := h1
      have h3 : keys.getD (i - 1) 0 ≤ x := h
      exact le_of_lt (lt_of_lt_of_le h2 h3)

/-- An upper bound of a child interval widens to the node's. -/
theorem ubOK_widen (hi : Option Int) (keys : List Int) (i : Nat) (x : Int)
    (hkeys : ∀ j, j < keys.length → ubOK hi (keys.getD j 0))
    (h : ubOK (childHi hi keys i) x) : ubOK hi x := by
  unfold childHi at h
  by_cases h0 : i < keys.length
  · rw [if_pos h0] at h
    have h1 := hkeys i h0
    cases hi with
    | none => trivial
    | some hv =>
      have h2 : keys.getD i 0 < hv := h1
      have h3 : x < keys.getD i 0 := h
      exact lt_trans h3 h2
  · rwa [if_neg h0] at h

/-- The descent's child interval contains the searched key. -/
theorem search_child_bounds (lo hi : Option Int) (keys : List Int) (k : Int)
    (hk : inb lo hi k) :
    inb (childLo lo keys (internalSearch keys k))
      (childHi hi keys (internalSearch keys k)) k := by
  constructor
  · unfold childLo
    by_cases h0 : internalSearch keys k = 0
    · rw [if_pos h0]
      exact hk.1
    · rw [if_neg h0]
      have hle := internalSearch_le keys k
      exact internalSearch_before keys k (internalSearch keys k - 1) (by omega) (by omega)
  · unfold childHi
    by_cases h0 : internalSearch keys k < keys.length
    · rw [if_pos h0]
      exact internalSearch_found keys k h0
    · rw [if_neg h0]
      exact hk.2

/-! ### Leaf lookup lemmas -/

/-- Absent key: the leaf lookup's hit test fails. -/
theorem leafSearch_miss (es : List (Int × Int)) (k : Int)
    (habs : ∀ e ∈ es, e.1 ≠ k) :
    ¬(leafSearch es k < es.length ∧ (es.getD (leafSearch es k) (0, 0)).1 = k) := by
  rintro ⟨h1, h2⟩
  have hmem : es.getD (leafSearch es k) (0, 0) ∈ es := by
    rw [List.getD_eq_getElem _ _ h1]
    exact List.getElem_mem h1
  exact habs _ hmem h2

/-- Absent key: the leaf lookup misses. -/
theorem leafGet_none (es : List (Int × Int)) (k : Int)
    (habs : ∀ e ∈ es, e.1 ≠ k) : leafGet es k = none := by
  simp only [leafGet]
  rw [if_neg (leafSearch_miss es k habs)]

/-- Present key in a sorted leaf: the search lands on its position. -/
theorem leafSearch_hit (es : List (Int × Int)) (k : Int) (j : Nat)
    (hs : List.Pairwise (fun a b => a.1 < b.1) es)
    (hj : j < es.length) (hk : (es.getD j (0, 0)).1 = k) :
    leafSearch es k = j := by
  refine leafSearch_eq es k j (le_of_lt hj) ?_ (fun h2 => le_of_eq hk.symm)
  intro i hij
  have hi : i < es.length := lt_trans hij hj
  have hlt := List.pairwise_iff_getElem.mp hs i j hi hj hij
  rw [List.getD_eq_getElem _ _ hi, ← hk, List.getD_eq_getElem _ _ hj]
  exact hlt

/-- The lookup after inserting at the search position finds the new value. -/
theorem leafGet_insert (es : List (Int × Int)) (k v : Int)
    (hnot : ¬(leafSearch es k < es.length ∧
      (es.getD (leafSearch es k) (0, 0)).1 = k)) :
    leafGet (insertAt (leafSearch es k) (k, v) es) k = some v := by
  have hple : leafSearch es k ≤ es.length := leafSearch_le es k
  have hlen : (insertAt (leafSearch es k) (k, v) es).length = es.length + 1 :=
    insertAt_length _ _ _ hple
  have hsearch : leafSearch (insertAt (leafSearch es k) (k, v) es) k = leafSearch es k := by
    refine leafSearch_eq _ k (leafSearch es k) (by omega) ?_ ?_
    · intro i hip
      rw [insertAt_getD_lt _ _ _ _ i hip hple]
      exact leafSearch_before es k i hip (by omega)
    · intro h2
      rw [insertAt_getD_self _ _ _ _ hple]
  simp only [leafGet]
  rw [hsearch, if_pos ⟨by omega, by rw [insertAt_getD_self _ _ _ _ hple]⟩,
    insertAt_getD_self _ _ _ _ hple]

/-- Restricting a sorted leaf to its first `m` entries preserves lookups of
keys below the `m`-th key. -/
theorem leafGet_take (es : List (Int × Int)) (k : Int) (m : Nat)
    (hs : List.Pairwise (fun a b => a.1 < b.1) es)
    (hm : m < es.length) (hk : k < (es.getD m (0, 0)).1) :
    leafGet (es.take m) k = leafGet es k := by
  have hpos_le : leafSearch es k ≤ m := by
    by_contra h
    push_neg at h
    have h1 := leafSearch_before es k m h hm
    omega
  have htlen : (es.take m).length = m := by
    simp
    omega
  have hgetd : ∀ i, i < m → (es.take m).getD i (0, 0) = es.getD i (0, 0) := by
    intro i hi
    rw [List.getD_eq_getElem?_getD, List.getD_eq_getElem?_getD, List.getElem?_take_of_lt hi]
  rcases Nat.lt_or_ge (leafSearch es k) m with hlt | hge
  · have hsearch : leafSearch (es.take m) k = leafSearch es k := by
      refine leafSearch_eq _ k (leafSearch es k) (by omega) ?_ ?_
      · intro i hi
        rw [hgetd i (by omega)]
        exact leafSearch_before es k i hi (by omega)
      · intro h2
        rw [hgetd _ hlt]
        exact leafSearch_found es k (by omega)
    simp only [leafGet]
    rw [hsearch, htlen, hgetd _ hlt]
    by_cases hcond : (es.getD (leafSearch es k) (0, 0)).1 = k
    · rw [if_pos ⟨hlt, hcond⟩, if_pos ⟨by omega, hcond⟩]
    · rw [if_neg (by rintro ⟨h1, h2⟩; exact hcond h2),
        if_neg (by rintro ⟨h1, h2⟩; exact hcond h2)]
  · have hpm : leafSearch es k = m := le_antisymm hpos_le hge
    have hsearch : leafSearch (es.take m) k = m := by
      refine leafSearch_eq _ k m (by omega) ?_ (by intro h2; rw [htlen] at h2; omega)
      intro i hi
      rw [hgetd i hi]
      exact leafSearch_before es k i (by omega) (by omega)
    simp only [leafGet]
    rw [hsearch, htlen, hpm]
    rw [if_neg (by rintro ⟨h1, _⟩; omega),
      if_neg (by rintro ⟨h1, h2⟩; rw [h2] at hk; exact absurd hk (lt_irrefl k))]

/-- Dropping the first `m` entries of a sorted leaf preserves lookups of
keys at least the `m`-th key. -/
theorem leafGet_drop (es : List (Int × Int)) (k : Int) (m : Nat)
    (hs : List.Pairwise (fun a b => a.1 < b.1) es)
    (hm : m < es.length) (hk : (es.getD m (0, 0)).1 ≤ k) :
    leafGet (es.drop m) k = leafGet es k := by
  have hdlen : (es.drop m).length = es.length - m := by simp
  have hbefore : ∀ i, i < m → (es.getD i (0, 0)).1 < k := by
    intro i hi
    have h1 := List.pairwise_iff_getElem.mp hs i m (by omega) hm hi
    rw [List.getD_eq_getElem _ _ (show i < es.length by omega)]
    have h2 : (es.getD m (0, 0)).1 = (es[m]).1 := by
      rw [List.getD_eq_getElem _ _ hm]
    omega
  have hple : m ≤ leafSearch es k := by
    by_contra h
    push_neg at h
    have h1 := leafSearch_found es k (by omega)
    have h2 := hbefore (leafSearch es k) h
    omega
  have hgd : ∀ j, (es.drop m).getD j (0, 0) = es.getD (m + j) (0, 0) := by
    intro j
    rw [List.getD_eq_getElem?_getD, List.getD_eq_getElem?_getD, List.getElem?_drop]
  have hlle := leafSearch_le es k
  have hsearch : leafSearch (es.drop m) k = leafSearch es k - m := by
    refine leafSearch_eq _ k (leafSearch es k - m) (by omega) ?_ ?_
    · intro i hi
      rw [hgd i]
      exact leafSearch_before es k (m + i) (by omega) (by omega)
    · intro h2
      rw [hgd _, show m + (leafSearch es k - m) = leafSearch es k by omega]
      exact leafSearch_found es k (by rw [hdlen] at h2; omega)
  simp only [leafGet]
  rw [hsearch, hdlen, hgd, show m + (leafSearch es k - m) = leafSearch es k by omega]
  by_cases hcond : leafSearch es k < es.length ∧ (es.getD (leafSearch es k) (0, 0)).1 = k
  · rw [if_pos ⟨by omega, hcond.2⟩, if_pos hcond]
  · rw [if_neg (by rintro ⟨h1, h2⟩; exact hcond ⟨by omega, h2⟩), if_neg hcond]

/-! ### B+ tree descent lemmas -/

/-- Setting an index to the element it already holds is the identity. -/
theorem set_get_self {α : Type} (l : List α) (i : Nat) (h : i < l.length) :
    l.set i (l.get ⟨i, h⟩) = l := by
  have h2 := set_getD_self l i (l.get ⟨i, h⟩) h
  rwa [List.getD_eq_getElem _ _ h] at h2

/-- Every key stored in a well-formed subtree lies inside its bounds. -/
theorem keyIn_bounds : ∀ (n : Nat) (t : BTree), sizeOf t ≤ n → ∀ (lo hi : Option Int) (k : Int),
    WF lo t hi → KeyInT k t → inb lo hi k := by
  intro n
  induction n with
  | zero =>
    intro t ht
    cases t <;> simp_arith at ht
  | succ n ih =>
    intro t ht lo hi k hwf hkin
    cases t with
    | leaf es =>
      rw [WF] at hwf
      rw [KeyInT] at hkin
      obtain ⟨e, he, hek⟩ := hkin
      have h1 := hwf.2 e he
      rwa [hek] at h1
    | node keys kids =>
      rw [WF] at hwf
      rw [KeyInT] at hkin
      obtain ⟨hlen, hsort, hbS, hkids⟩ := hwf
      obtain ⟨i, hik, hin⟩ := hkin
      have hszn : sizeOf (BTree.node keys kids) = 1 + sizeOf keys + sizeOf kids := by simp
      have hszlt : sizeOf (kids.get ⟨i, hik⟩) < sizeOf kids :=
        List.sizeOf_lt_of_mem (kids.get_mem i hik)
      have hb := ih (kids.get ⟨i, hik⟩) (by omega) (childLo lo keys i) (childHi hi keys i) k
        (hkids i hik) hin
      have hkeyD : ∀ j, j < keys.length → inbS lo hi (keys.getD j 0) := by
        intro j hj
        refine hbS (keys.getD j 0) ?_
        rw [List.getD_eq_getElem _ _ hj]
        exact List.getElem_mem hj
      constructor
      · exact lbOK_widen lo keys i k (fun j hj => (hkeyD j hj).1) (by omega) hb.1
      · exact ubOK_widen hi keys i k (fun j hj => (hkeyD j hj).2) hb.2

/-- In a well-formed internal node, the descent's search lands exactly on
the child that stores the key. -/
theorem keyIn_route (lo hi : Option Int) (keys : List Int) (kids : List BTree) (k : Int)
    (j : Nat) (hwf : WF lo (.node keys kids) hi) (hj : j < kids.length)
    (hkin : KeyInT k (kids.get ⟨j, hj⟩)) : internalSearch keys k = j := by
  rw [WF] at hwf
  obtain ⟨hlen, hsort, hbS, hkids⟩ := hwf
  have hb := keyIn_bounds (sizeOf (kids.get ⟨j, hj⟩)) _ le_rfl _ _ k (hkids j hj) hkin
  refine internalSearch_eq keys k j (by omega) ?_ ?_
  · intro i hij
    have hj1 : 1 ≤ j := by omega
    have hlo : keys.getD (j - 1) 0 ≤ k := by
      have h1 := hb.1
      unfold childLo at h1
      rwa [if_neg (by omega)] at h1
    rcases Nat.lt_or_ge i (j - 1) with hi2 | hi2
    · have hs2 := List.pairwise_iff_getElem.mp hsort i (j - 1) (by omega) (by omega) hi2
      rw [List.getD_eq_getElem _ _ (show i < keys.length by omega)]
      rw [List.getD_eq_getElem _ _ (show j - 1 < keys.length by omega)] at hlo
      omega
    · have hij2 : i = j - 1 := by omega
      rw [hij2]
      exact hlo
  · intro hjk
    have h1 := hb.2
    unfold childHi at h1
    rwa [if_pos hjk] at h1

/-- The error paths of the node-level insert: inserting a present key with
`update = false` reports a duplicate key, updating an absent key reports a
missing entry, and both leave the tree untouched. -/
theorem btInsertNode_err : ∀ (n : Nat) (t : BTree), sizeOf t ≤ n →
    ∀ (lo hi : Option Int) (k v : Int), WF lo t hi →
    (KeyInT k t → btInsertNode t k v false = .err .duplicateKey t) ∧
    (KeyAbsentT k t → btInsertNode t k v true = .err .missingEntry t) := by
  intro n
  induction n with
  | zero =>
    intro t ht
    cases t <;> simp_arith at ht
  | succ n ih =>
    intro t ht lo hi k v hwf
    cases t with
    | leaf es =>
      rw [WF] at hwf
      constructor
      · intro hkin
        rw [KeyInT] at hkin
        obtain ⟨e, he, hek⟩ := hkin
        obtain ⟨j, hj, hje⟩ := List.getElem_of_mem he
        have hhit : leafSearch es k = j := leafSearch_hit es k j hwf.1 hj
          (by rw [List.getD_eq_getElem _ _ hj, hje, hek])
        rw [btInsertNode]
        simp only [btLeafInsert]
        rw [hhit, if_pos ⟨hj, by rw [List.getD_eq_getElem _ _ hj, hje, hek]⟩,
          if_neg (by decide)]
      · intro habs
        rw [KeyAbsentT] at habs
        rw [btInsertNode]
        simp only [btLeafInsert]
        rw [if_neg (leafSearch_miss es k habs), if_pos (by decide)]
    | node keys kids =>
      have hwf2 := hwf
      rw [WF] at hwf2
      obtain ⟨hlen, hsort, hbS, hkids⟩ := hwf2
      have hile : internalSearch keys k ≤ keys.length := internalSearch_le keys k
      have hik : internalSearch keys k < kids.length := by omega
      have hsel : selectChild keys kids k = kids.get ⟨internalSearch keys k, hik⟩ := by
        unfold selectChild
        rw [List.getD_eq_getElem _ _ hik, List.get_eq_getElem]
      have hszn : sizeOf (BTree.node keys kids) = 1 + sizeOf keys + sizeOf kids := by simp
      have hszsel : sizeOf (selectChild keys kids k) ≤ n := by
        have h1 := selectChild_sizeOf_lt keys kids k
        omega
      have hwfsel : WF (childLo lo keys (internalSearch keys k)) (selectChild keys kids k)
          (childHi hi keys (internalSearch keys k)) := by
        rw [hsel]
        exact hkids _ hik
      have hchild := ih (selectChild keys kids k) hszsel
        (childLo lo keys (internalSearch keys k)) (childHi hi keys (internalSearch keys k))
        k v hwfsel
      constructor
      · intro hkin
        rw [KeyInT] at hkin
        obtain ⟨j, hj, hjin⟩ := hkin
        have hroute : internalSearch keys k = j := keyIn_route lo hi keys kids k j hwf hj hjin
        subst hroute
        have hkinsel : KeyInT k (selectChild keys kids k) := by
          rw [hsel]
          exact hjin
        have herr := hchild.1 hkinsel
        rw [btInsertNode, herr]
        dsimp only
        rw [hsel, set_get_self kids _ hik]
      · intro habs
        rw [KeyAbsentT] at habs
        have habssel : KeyAbsentT k (selectChild keys kids k) := by
          rw [hsel]
          exact habs _ hik
        have herr := hchild.2 habssel
        rw [btInsertNode, herr]
        dsimp only
        rw [hsel, set_get_self kids _ hik]

/-- C4: for every key `k` and value `v`, a B+ tree insert with
`update = false` on a tree already containing `k` fails with the structured
duplicate-key error, and an insert with `update = true` on a tree not
containing `k` fails with the structured missing-entry error; in both
cases the error comes back through the split-propagation path and the tree
is unchanged. -/
theorem btree_insert_error_paths (t : BTree) (k v : Int)
    (hwf : WF none t none) :
    (KeyInT k t → btInsert t k v false = (some .duplicateKey, t)) ∧
    (KeyAbsentT k t → btInsert t k v true = (some .missingEntry, t)) := by
  have h := btInsertNode_err (sizeOf t) t le_rfl none none k v hwf
  constructor
  · intro hkin
    unfold btInsert
    rw [h.1 hkin]
  · intro habs
    unfold btInsert
    rw [h.2 habs]

/-- Witness for C4: the two-entry leaf `{(1,10), (3,30)}`; inserting key 3
without update reports the duplicate, updating absent key 2 reports the
missing entry, and the leaf is unchanged both times. -/
theorem btree_insert_error_paths_witness :
    WF none (.leaf [(1, 10), (3, 30)]) none ∧
    KeyInT 3 (.leaf [(1, 10), (3, 30)]) ∧
    KeyAbsentT 2 (.leaf [(1, 10), (3, 30)]) ∧
    btInsert (.leaf [(1, 10), (3, 30)]) 3 7 false =
      (some .duplicateKey, .leaf [(1, 10), (3, 30)]) ∧
    btInsert (.leaf [(1, 10), (3, 30)]) 2 7 true =
      (some .missingEntry, .leaf [(1, 10), (3, 30)]) := by
  have hwf : WF none (BTree.leaf [(1, 10), (3, 30)]) none := by
    rw [WF]
    refine ⟨by decide, ?_⟩
    intro e he
    exact ⟨trivial, trivial⟩
  have hin : KeyInT 3 (BTree.leaf [(1, 10), (3, 30)]) := by
    rw [KeyInT]
    exact ⟨(3, 30), by decide, rfl⟩
  have habs : KeyAbsentT 2 (BTree.leaf [(1, 10), (3, 30)]) := by
    rw [KeyAbsentT]
    decide
  have h1 := btree_insert_error_paths (.leaf [(1, 10), (3, 30)]) 3 7 hwf
  have h2 := btree_insert_error_paths (.leaf [(1, 10), (3, 30)]) 2 7 hwf
  exact ⟨hwf, hin, habs, h1.1 hin, h2.2 habs⟩

/-! ### More `getD` helpers for the insert proof -/

/-- `getD` at the index just written by `set`. -/
theorem getD_set_self {α : Type} (l : List α) (i : Nat) (a d : α) (h : i < l.length) :
    (l.set i a).getD i d = a := by
  rw [List.getD_eq_getElem?_getD, List.getElem?_set_self (by exact h)]
  rfl

/-- `getD` away from the index written by `set`. -/
theorem getD_set_ne {α : Type} (l : List α) (i j : Nat) (a d : α) (h : i ≠ j) :
    (l.set i a).getD j d = l.getD j d := by
  rw [List.getD_eq_getElem?_getD, List.getElem?_set_ne h, ← List.getD_eq_getElem?_getD]

/-- `getD` inside a prefix. -/
theorem getD_take {α : Type} (l : List α) (n i : Nat) (d : α) (h : i < n) :
    (l.take n).getD i d = l.getD i d := by
  rw [List.getD_eq_getElem?_getD, List.getD_eq_getElem?_getD, List.getElem?_take_of_lt h]

/-- `getD` inside a suffix. -/
theorem getD_drop {α : Type} (l : List α) (n i : Nat) (d : α) :
    (l.drop n).getD i d = l.getD (n + i) d := by
  rw [List.getD_eq_getElem?_getD, List.getD_eq_getElem?_getD, List.getElem?_drop]

/-- Strictly sorted keys compare by position, `getD` form. -/
theorem pairwise_getD_lt (keys : List Int) (hs : List.Pairwise (· < ·) keys) (i j : Nat)
    (hij : i < j) (hj : j < keys.length) : keys.getD i 0 < keys.getD j 0 := by
  have h1 := List.pairwise_iff_getElem.mp hs i j (by omega) hj hij
  rw [List.getD_eq_getElem _ _ (show i < keys.length by omega), List.getD_eq_getElem _ _ hj]
  exact h1

/-- Strictly sorted entries compare keys by position, `getD` form. -/
theorem pairwise_getD_fst_lt (es : List (Int × Int))
    (hs : List.Pairwise (fun a b => a.1 < b.1) es) (i j : Nat)
    (hij : i < j) (hj : j < es.length) :
    (es.getD i (0, 0)).1 < (es.getD j (0, 0)).1 := by
  have h1 := List.pairwise_iff_getElem.mp hs i j (by omega) hj hij
  rw [List.getD_eq_getElem _ _ (show i < es.length by omega), List.getD_eq_getElem _ _ hj]
  exact h1

/-- An in-range `getD` is a member. -/
theorem getD_mem {α : Type} (l : List α) (i : Nat) (d : α) (h : i < l.length) :
    l.getD i d ∈ l := by
  rw [List.getD_eq_getElem _ _ h]
  exact List.getElem_mem h

/-- Members of a prefix sit at in-range positions below the cut. -/
theorem mem_take_getD {α : Type} (l : List α) (n : Nat) (d : α) (x : α) (hx : x ∈ l.take n) :
    ∃ i, i < n ∧ i < l.length ∧ l.getD i d = x := by
  obtain ⟨i, hi, hix⟩ := List.getElem_of_mem hx
  have hlen : (l.take n).length = min n l.length := by simp
  refine ⟨i, by omega, by omega, ?_⟩
  rw [List.getD_eq_getElem _ _ (show i < l.length by omega), ← List.getElem_take l]
  exact hix

/-- Members of a suffix sit at in-range positions past the cut. -/
theorem mem_drop_getD {α : Type} (l : List α) (n : Nat) (d : α) (x : α) (hx : x ∈ l.drop n) :
    ∃ i, n + i < l.length ∧ l.getD (n + i) d = x := by
  obtain ⟨i, hi, hix⟩ := List.getElem_of_mem hx
  have hlen : (l.drop n).length = l.length - n := by simp
  refine ⟨i, by omega, ?_⟩
  rw [List.getD_eq_getElem _ _ (show n + i < l.length by omega), ← List.getElem_drop l]
  exact hix

/-- Replacing one child of a well-formed node with a subtree that is
well-formed for that child's interval keeps the node well-formed. -/
theorem WF_set_child (lo hi : Option Int) (keys : List Int) (kids : List BTree)
    (i : Nat) (c : BTree) (hwf : WF lo (.node keys kids) hi) (hik : i < kids.length)
    (hc : WF (childLo lo keys i) c (childHi hi keys i)) :
    WF lo (.node keys (kids.set i c)) hi := by
  rw [WF] at hwf ⊢
  obtain ⟨hlen, hsort, hbS, hkids⟩ := hwf
  refine ⟨by simpa using hlen, hsort, hbS, ?_⟩
  intro j hj
  have hj2 : j < kids.length := by simpa using hj
  by_cases hji : j = i
  · subst hji
    have hgd : (kids.set j c).get ⟨j, hj⟩ = c := by
      rw [List.get_eq_getElem, ← List.getD_eq_getElem _ (BTree.leaf []),
        getD_set_self kids j c _ hj2]
    rw [hgd]
    exact hc
  · have hgd : (kids.set i c).get ⟨j, hj⟩ = kids.get ⟨j, hj2⟩ := by
      rw [List.get_eq_getElem, List.get_eq_getElem,
        ← List.getD_eq_getElem _ (BTree.leaf []), ← List.getD_eq_getElem _ (BTree.leaf []),
        getD_set_ne kids i j c _ (fun hh => hji hh.symm)]
    rw [hgd]
    exact hkids j hj2

/-! ### Leaf-level insert correctness -/

/-- Inserting an absent key into a well-formed leaf: never an error; without
overflow the leaf stays well-formed and the lookup finds the value; on
overflow the two halves are well-formed around the promoted key, which
routes the inserted key to the correct half. -/
theorem btLeafInsert_ok (es : List (Int × Int)) (k v : Int) (lo hi : Option Int)
    (hwf : WF lo (.leaf es) hi) (hk : inb lo hi k) (habs : ∀ e ∈ es, e.1 ≠ k) :
    (∀ e t2, btLeafInsert es k v false ≠ .err e t2) ∧
    (∀ t2, btLeafInsert es k v false = .ok t2 → WF lo t2 hi ∧ nodeGet t2 k = some v) ∧
    (∀ l key r, btLeafInsert es k v false = .split l key r →
      WF lo l (some key) ∧ WF (some key) r hi ∧ inbS lo hi key ∧
      (k < key → nodeGet l k = some v) ∧ (key ≤ k → nodeGet r k = some v)) := by
  rw [WF] at hwf
  obtain ⟨hsort, hbnd⟩ := hwf
  have hcond := leafSearch_miss es k habs
  have hple : leafSearch es k ≤ es.length := leafSearch_le es k
  have hlen1 : (insertAt (leafSearch es k) (k, v) es).length = es.length + 1 :=
    insertAt_length _ _ _ hple
  have hsort1 : List.Pairwise (fun a b => a.1 < b.1)
      (insertAt (leafSearch es k) (k, v) es) := by
    refine pairwise_insertAt _ _ _ _ hsort ?_ ?_
    · intro x hx
      obtain ⟨i, hi1, hi2, hieq⟩ := mem_take_getD es (leafSearch es k) (0, 0) x hx
      rw [← hieq]
      exact leafSearch_before es k i hi1 hi2
    · intro x hx
      obtain ⟨j, hj1, hjeq⟩ := mem_drop_getD es (leafSearch es k) (0, 0) x hx
      rw [← hjeq]
      have hposlt : leafSearch es k < es.length := by omega
      have hge := leafSearch_found es k hposlt
      have hne : (es.getD (leafSearch es k) (0, 0)).1 ≠ k :=
        fun hh => hcond ⟨hposlt, hh⟩
      rcases Nat.eq_zero_or_pos j with hj0 | hj0
      · rw [hj0]
        simp only [Nat.add_zero]
        omega
      · have hlt := pairwise_getD_fst_lt es hsort (leafSearch es k) (leafSearch es k + j)
          (by omega) hj1
        omega
  have hbnd1 : ∀ e ∈ insertAt (leafSearch es k) (k, v) es, inb lo hi e.1 := by
    intro e he
    rcases insertAt_mem _ _ _ _ he with rfl | he2
    · exact hk
    · exact hbnd e he2
  have hget1 : leafGet (insertAt (leafSearch es k) (k, v) es) k = some v :=
    leafGet_insert es k v hcond
  simp only [btLeafInsert]
  rw [if_neg hcond, if_neg (by decide)]
  have hepl : ENTRIES_PER_LEAF_NODE = 202 := rfl
  by_cases hover :
      (insertAt (leafSearch es k) (k, v) es).length > ENTRIES_PER_LEAF_NODE
  · rw [if_pos hover]
    refine ⟨?_, ?_, ?_⟩
    · intro e t2 h
      cases h
    · intro t2 h
      cases h
    intro l key r hsp
    injection hsp with h1 h2 h3
    subst h1
    subst h2
    subst h3
    set es₁ := insertAt (leafSearch es k) (k, v) es with hes₁
    set mid := es₁.length / 2 with hmid
    have hmidlt : mid < es₁.length := by omega
    have hmid1 : 1 ≤ mid := by omega
    have hheadD : ∀ (l : List (Int × Int)) (d : Int × Int), l.headD d = l.head?.getD d := by
      intro l d
      cases l <;> rfl
    have hkeyeq : ((es₁.drop mid).headD (0, 0)).1 = (es₁.getD mid (0, 0)).1 := by
      rw [hheadD, List.head?_drop, ← List.getD_eq_getElem?_getD]
    rw [hkeyeq]
    refine ⟨?_, ?_, ?_, ?_, ?_⟩
    · rw [WF]
      refine ⟨List.Pairwise.take hsort1, ?_⟩
      intro e he
      obtain ⟨i, hi1, hi2, hieq⟩ := mem_take_getD es₁ mid (0, 0) e he
      refine ⟨(hbnd1 e (List.take_subset _ _ he)).1, ?_⟩
      show e.1 < (es₁.getD mid (0, 0)).1
      rw [← hieq]
      exact pairwise_getD_fst_lt es₁ hsort1 i mid hi1 hmidlt
    · rw [WF]
      refine ⟨List.Pairwise.drop hsort1, ?_⟩
      intro e he
      obtain ⟨j, hj1, hjeq⟩ := mem_drop_getD es₁ mid (0, 0) e he
      refine ⟨?_, (hbnd1 e (List.drop_subset _ _ he)).2⟩
      show (es₁.getD mid (0, 0)).1 ≤ e.1
      rw [← hjeq]
      rcases Nat.eq_zero_or_pos j with hj0 | hj0
      · rw [hj0]
        simp
      · exact le_of_lt (pairwise_getD_fst_lt es₁ hsort1 mid (mid + j) (by omega) hj1)
    · refine ⟨?_, (hbnd1 _ (getD_mem es₁ mid (0, 0) hmidlt)).2⟩
      cases lo with
      | none => trivial
      | some lv =>
        show lv < (es₁.getD mid (0, 0)).1
        have h0 : lv ≤ (es₁.getD 0 (0, 0)).1 :=
          (hbnd1 _ (getD_mem es₁ 0 (0, 0) (by omega))).1
        have hlt := pairwise_getD_fst_lt es₁ hsort1 0 mid hmid1 hmidlt
        omega
    · intro hkey
      rw [nodeGet, leafGet_take es₁ k mid hsort1 hmidlt hkey]
      exact hget1
    · intro hkey
      rw [nodeGet, leafGet_drop es₁ k mid hsort1 hmidlt hkey]
      exact hget1
  · rw [if_neg hover]
    refine ⟨?_, ?_, ?_⟩
    · intro e t2 h
      cases h
    · intro t2 h
      injection h with h1
      subst h1
      constructor
      · rw [WF]
        exact ⟨hsort1, hbnd1⟩
      · rw [nodeGet]
        exact hget1
    · intro l key r h
      cases h

/-! ### Internal-node reassembly after a child split -/

/-- After a child split, inserting the promoted key at the search position
and splicing the two halves around it yields a well-formed node in which the
inserted key is found.  Also, the promoted key's insert position equals the
original descent position. -/
theorem node_insert_split_assemble (lo hi : Option Int) (keys : List Int) (kids : List BTree)
    (k v key : Int) (l r : BTree)
    (hlen : kids.length = keys.length + 1)
    (hsort : List.Pairwise (· < ·) keys)
    (hbS : ∀ x ∈ keys, inbS lo hi x)
    (hkids : ∀ i, ∀ h : i < kids.length,
      WF (childLo lo keys i) (kids.get ⟨i, h⟩) (childHi hi keys i))
    (hwl : WF (childLo lo keys (internalSearch keys k)) l (some key))
    (hwr : WF (some key) r (childHi hi keys (internalSearch keys k)))
    (hkeyb : inbS (childLo lo keys (internalSearch keys k))
      (childHi hi keys (internalSearch keys k)) key)
    (hgl : k < key → nodeGet l k = some v)
    (hgr : key ≤ k → nodeGet r k = some v) :
    internalSearch keys key = internalSearch keys k ∧
    WF lo (.node (insertAt (internalSearch keys k) key keys)
      (insertAt (internalSearch keys k + 1) r (kids.set (internalSearch keys k) l))) hi ∧
    nodeGet (.node (insertAt (internalSearch keys k) key keys)
      (insertAt (internalSearch keys k + 1) r (kids.set (internalSearch keys k) l))) k
      = some v := by
  set idx := internalSearch keys k with hidx
  have hile : idx ≤ keys.length := internalSearch_le keys k
  have hkD : ∀ j, j < keys.length → inbS lo hi (keys.getD j 0) := by
    intro j hj
    exact hbS _ (getD_mem keys j 0 hj)
  have hkgt : ∀ i, i < idx → keys.getD i 0 < key := by
    intro i hi
    have hidx0 : ¬(idx = 0) := by omega
    have h1 : keys.getD (idx - 1) 0 < key := by
      have h2 := hkeyb.1
      unfold childLo at h2
      rwa [if_neg hidx0] at h2
    rcases Nat.lt_or_ge i (idx - 1) with h3 | h3
    · have h4 := pairwise_getD_lt keys hsort i (idx - 1) h3 (by omega)
      omega
    · have h5 : i = idx - 1 := by omega
      rw [h5]
      exact h1
  have hklt : ∀ hilt : idx < keys.length, key < keys.getD idx 0 := by
    intro hilt
    have h2 := hkeyb.2
    unfold childHi at h2
    rwa [if_pos hilt] at h2
  have hkafter : ∀ j, idx ≤ j → j < keys.length → key < keys.getD j 0 := by
    intro j h1 h2
    rcases Nat.eq_or_lt_of_le h1 with h3 | h3
    · rw [← h3]
      exact hklt (by omega)
    · have h4 := pairwise_getD_lt keys hsort idx j h3 h2
      have h5 := hklt (by omega)
      omega
  have hbefore_k : ∀ i, i < idx → keys.getD i 0 ≤ k := fun i hi =>
    internalSearch_before keys k i hi (by omega)
  have hat_k : ∀ hilt : idx < keys.length, k < keys.getD idx 0 := fun hilt =>
    internalSearch_found keys k hilt
  have hpos : internalSearch keys key = idx :=
    internalSearch_eq keys key idx hile (fun i hi => le_of_lt (hkgt i hi)) hklt
  have hkl1 : (insertAt idx key keys).length = keys.length + 1 := insertAt_length _ _ _ hile
  have hsetlen : (kids.set idx l).length = kids.length := by simp
  have hi1le : idx + 1 ≤ (kids.set idx l).length := by omega
  have hkdl1 : (insertAt (idx + 1) r (kids.set idx l)).length = kids.length + 1 := by
    rw [insertAt_length _ _ _ hi1le, hsetlen]
  have hk1lt : ∀ i, i < idx → (insertAt idx key keys).getD i 0 = keys.getD i 0 :=
    fun i hi => insertAt_getD_lt _ _ _ _ i hi hile
  have hk1self : (insertAt idx key keys).getD idx 0 = key := insertAt_getD_self _ _ _ _ hile
  have hk1gt : ∀ i, idx < i → (insertAt idx key keys).getD i 0 = keys.getD (i - 1) 0 :=
    fun i hi => insertAt_getD_gt _ _ _ _ i hi hile
  have hkd_lt : ∀ j, j < idx →
      (insertAt (idx + 1) r (kids.set idx l)).getD j (.leaf []) = kids.getD j (.leaf []) := by
    intro j hj
    rw [insertAt_getD_lt _ _ _ _ j (by omega) hi1le, getD_set_ne kids idx j l _ (by omega)]
  have hkd_idx : (insertAt (idx + 1) r (kids.set idx l)).getD idx (.leaf []) = l := by
    rw [insertAt_getD_lt _ _ _ _ idx (by omega) hi1le, getD_set_self kids idx l _ (by omega)]
  have hkd_idx1 : (insertAt (idx + 1) r (kids.set idx l)).getD (idx + 1) (.leaf []) = r :=
    insertAt_getD_self _ _ _ _ hi1le
  have hkd_gt : ∀ j, idx + 1 < j →
      (insertAt (idx + 1) r (kids.set idx l)).getD j (.leaf []) =
        kids.getD (j - 1) (.leaf []) := by
    intro j hj
    rw [insertAt_getD_gt _ _ _ _ j hj hi1le, getD_set_ne kids idx (j - 1) l _ (by omega)]
  refine ⟨hpos, ?_, ?_⟩
  · rw [WF]
    refine ⟨by omega, ?_, ?_, ?_⟩
    · refine pairwise_insertAt _ _ _ _ hsort ?_ ?_
      · intro x hx
        obtain ⟨i, hi1, hi2, hieq⟩ := mem_take_getD keys idx 0 x hx
        rw [← hieq]
        exact hkgt i hi1
      · intro x hx
        obtain ⟨j, hj1, hjeq⟩ := mem_drop_getD keys idx 0 x hx
        rw [← hjeq]
        exact hkafter (idx + j) (by omega) hj1
    · intro x hx
      rcases insertAt_mem _ _ _ _ hx with rfl | hx2
      · exact ⟨lbStrict_widen lo keys idx x (fun j hj => (hkD j hj).1) hile hkeyb.1,
          ubOK_widen hi keys idx x (fun j hj => (hkD j hj).2) hkeyb.2⟩
      · exact hbS x hx2
    · intro i hgi
      have hgetD : (insertAt (idx + 1) r (kids.set idx l)).get ⟨i, hgi⟩ =
          (insertAt (idx + 1) r (kids.set idx l)).getD i (.leaf []) := by
        rw [List.get_eq_getElem, ← List.getD_eq_getElem _ (.leaf []) hgi]
      have higi : i < kids.length + 1 := by omega
      rw [hgetD]
      rcases Nat.lt_trichotomy i idx with hcase | hcase | hcase
      · rw [hkd_lt i hcase]
        have hik2 : i < kids.length := by omega
        have hgd2 : kids.getD i (.leaf []) = kids.get ⟨i, hik2⟩ := by
          rw [List.get_eq_getElem, List.getD_eq_getElem _ _ hik2]
        have hclo : childLo lo (insertAt idx key keys) i = childLo lo keys i := by
          unfold childLo
          by_cases h0 : i = 0
          · rw [if_pos h0, if_pos h0]
          · rw [if_neg h0, if_neg h0, hk1lt (i - 1) (by omega)]
        have hchi : childHi hi (insertAt idx key keys) i = childHi hi keys i := by
          unfold childHi
          rw [if_pos (by omega), if_pos (by omega), hk1lt i hcase]
        rw [hgd2, hclo, hchi]
        exact hkids i hik2
      · subst hcase
        rw [hkd_idx]
        have hclo : childLo lo (insertAt idx key keys) idx = childLo lo keys idx := by
          unfold childLo
          by_cases h0 : idx = 0
          · rw [if_pos h0, if_pos h0]
          · rw [if_neg h0, if_neg h0, hk1lt (idx - 1) (by omega)]
        have hchi : childHi hi (insertAt idx key keys) idx = some key := by
          unfold childHi
          rw [if_pos (by omega), hk1self]
        rw [hclo, hchi]
        exact hwl
      · by_cases hci : i = idx + 1
        · subst hci
          rw [hkd_idx1]
          have hclo : childLo lo (insertAt idx key keys) (idx + 1) = some key := by
            unfold childLo
            rw [if_neg (by omega)]
            simp only [Nat.add_sub_cancel]
            rw [hk1self]
          have hchi : childHi hi (insertAt idx key keys) (idx + 1) = childHi hi keys idx := by
            unfold childHi
            by_cases h0 : idx < keys.length
            · rw [if_pos (by omega), if_pos h0, hk1gt (idx + 1) (by omega)]
              simp only [Nat.add_sub_cancel]
            · rw [if_neg (by omega), if_neg h0]
          rw [hclo, hchi]
          exact hwr
        · have hgt : idx + 1 < i := by omega
          rw [hkd_gt i hgt]
          have hik2 : i - 1 < kids.length := by omega
          have hgd2 : kids.getD (i - 1) (.leaf []) = kids.get ⟨i - 1, hik2⟩ := by
            rw [List.get_eq_getElem, List.getD_eq_getElem _ _ hik2]
          have hclo : childLo lo (insertAt idx key keys) i = childLo lo keys (i - 1) := by
            unfold childLo
            rw [if_neg (by omega), if_neg (by omega), hk1gt (i - 1) (by omega)]
          have hchi : childHi hi (insertAt idx key keys) i = childHi hi keys (i - 1) := by
            unfold childHi
            by_cases h0 : i - 1 < keys.length
            · rw [if_pos (by omega), if_pos h0, hk1gt i (by omega)]
            · rw [if_neg (by omega), if_neg h0]
          rw [hgd2, hclo, hchi]
          exact hkids (i - 1) hik2
  · rw [nodeGet]
    rcases lt_or_le k key with hkk | hkk
    · have hidx1 : internalSearch (insertAt idx key keys) k = idx := by
        refine internalSearch_eq _ k idx (by omega) ?_ ?_
        · intro i hi
          rw [hk1lt i hi]
          exact hbefore_k i hi
        · intro h2
          rw [hk1self]
          exact hkk
      unfold selectChild
      rw [hidx1, hkd_idx]
      exact hgl hkk
    · have hidx1 : internalSearch (insertAt idx key keys) k = idx + 1 := by
        refine internalSearch_eq _ k (idx + 1) (by omega) ?_ ?_
        · intro i hi
          by_cases h0 : i = idx
          · rw [h0, hk1self]
            exact hkk
          · rw [hk1lt i (by omega)]
            exact hbefore_k i (by omega)
        · intro h2
          rw [hk1gt (idx + 1) (by omega)]
          simp only [Nat.add_sub_cancel]
          exact hat_k (by omega)
      unfold selectChild
      rw [hidx1, hkd_idx1]
      exact hgr hkk

/-! ### Internal-node overflow split -/

/-- Splitting an overflowing well-formed internal node at
`m = (numKeys - 1) / 2` yields two well-formed halves around the promoted
key `keys[m-1]`, which routes any key the original node resolved. -/
theorem node_overflow_split (lo hi : Option Int) (K : List Int) (KD : List BTree) (k v : Int)
    (hwf : WF lo (.node K KD) hi)
    (hget : nodeGet (.node K KD) k = some v)
    (hover : K.length > KEYS_PER_INTERNAL_NODE) :
    WF lo (.node (K.take ((K.length - 1) / 2 - 1)) (KD.take ((K.length - 1) / 2)))
      (some (K.getD ((K.length - 1) / 2 - 1) 0)) ∧
    WF (some (K.getD ((K.length - 1) / 2 - 1) 0))
      (.node (K.drop ((K.length - 1) / 2)) (KD.drop ((K.length - 1) / 2))) hi ∧
    inbS lo hi (K.getD ((K.length - 1) / 2 - 1) 0) ∧
    (k < K.getD ((K.length - 1) / 2 - 1) 0 →
      nodeGet (.node (K.take ((K.length - 1) / 2 - 1)) (KD.take ((K.length - 1) / 2))) k
        = some v) ∧
    (K.getD ((K.length - 1) / 2 - 1) 0 ≤ k →
      nodeGet (.node (K.drop ((K.length - 1) / 2)) (KD.drop ((K.length - 1) / 2))) k
        = some v) := by
  rw [WF] at hwf
  obtain ⟨hlen, hsort, hbS, hkids⟩ := hwf
  have hkpi : KEYS_PER_INTERNAL_NODE = 202 := rfl
  set m := (K.length - 1) / 2 with hm
  have hm1 : 1 ≤ m := by omega
  have hmlt : m < K.length := by omega
  have hm1lt : m - 1 < K.length := by omega
  have hile := internalSearch_le K k
  have htlK : (K.take (m - 1)).length = m - 1 := by
    simp
    omega
  have htlKD : (KD.take m).length = m := by
    simp
    omega
  have hdlK : (K.drop m).length = K.length - m := by simp
  have hdlKD : (KD.drop m).length = KD.length - m := by simp
  have hgtK : ∀ i, i < m - 1 → (K.take (m - 1)).getD i 0 = K.getD i 0 :=
    fun i hi => getD_take K (m - 1) i 0 hi
  have hgtKD : ∀ i, i < m → (KD.take m).getD i (.leaf []) = KD.getD i (.leaf []) :=
    fun i hi => getD_take KD m i (.leaf []) hi
  have hgdK : ∀ i, (K.drop m).getD i 0 = K.getD (m + i) 0 := fun i => getD_drop K m i 0
  have hgdKD : ∀ i, (KD.drop m).getD i (.leaf []) = KD.getD (m + i) (.leaf []) :=
    fun i => getD_drop KD m i (.leaf [])
  have hkD : ∀ j, j < K.length → inbS lo hi (K.getD j 0) := fun j hj =>
    hbS _ (getD_mem K j 0 hj)
  have hwfl : WF lo (.node (K.take (m - 1)) (KD.take m)) (some (K.getD (m - 1) 0)) := by
    rw [WF]
    refine ⟨by omega, List.Pairwise.take hsort, ?_, ?_⟩
    · intro x hx
      obtain ⟨i, hi1, hi2, hieq⟩ := mem_take_getD K (m - 1) 0 x hx
      subst hieq
      refine ⟨(hkD i hi2).1, ?_⟩
      show K.getD i 0 < K.getD (m - 1) 0
      exact pairwise_getD_lt K hsort i (m - 1) hi1 hm1lt
    · intro i hgi
      have him : i < m := by omega
      have hikd : i < KD.length := by omega
      have hget2 : (KD.take m).get ⟨i, hgi⟩ = KD.get ⟨i, hikd⟩ := by
        rw [List.get_eq_getElem, List.get_eq_getElem,
          ← List.getD_eq_getElem _ (BTree.leaf []), ← List.getD_eq_getElem _ (BTree.leaf []),
          hgtKD i him]
      have hclo : childLo lo (K.take (m - 1)) i = childLo lo K i := by
        unfold childLo
        by_cases h0 : i = 0
        · rw [if_pos h0, if_pos h0]
        · rw [if_neg h0, if_neg h0, hgtK (i - 1) (by omega)]
      have hchi : childHi (some (K.getD (m - 1) 0)) (K.take (m - 1)) i = childHi hi K i := by
        unfold childHi
        by_cases h0 : i < m - 1
        · rw [if_pos (by omega), if_pos (by omega), hgtK i h0]
        · have h1 : i = m - 1 := by omega
          rw [if_neg (by omega), if_pos (by omega), h1]
      rw [hget2, hclo, hchi]
      exact hkids i hikd
  have hwfr : WF (some (K.getD (m - 1) 0)) (.node (K.drop m) (KD.drop m)) hi := by
    rw [WF]
    refine ⟨by omega, List.Pairwise.drop hsort, ?_, ?_⟩
    · intro x hx
      obtain ⟨j, hj1, hjeq⟩ := mem_drop_getD K m 0 x hx
      subst hjeq
      refine ⟨?_, (hkD (m + j) hj1).2⟩
      show K.getD (m - 1) 0 < K.getD (m + j) 0
      exact pairwise_getD_lt K hsort (m - 1) (m + j) (by omega) hj1
    · intro i hgi
      have hikd : m + i < KD.length := by omega
      have hget2 : (KD.drop m).get ⟨i, hgi⟩ = KD.get ⟨m + i, hikd⟩ := by
        rw [List.get_eq_getElem, List.get_eq_getElem,
          ← List.getD_eq_getElem _ (BTree.leaf []), ← List.getD_eq_getElem _ (BTree.leaf []),
          hgdKD i]
      have hclo : childLo (some (K.getD (m - 1) 0)) (K.drop m) i = childLo lo K (m + i) := by
        unfold childLo
        by_cases h0 : i = 0
        · rw [if_pos h0, if_neg (by omega), h0,
            show m + 0 - 1 = m - 1 by omega]
        · rw [if_neg h0, if_neg (by omega), hgdK (i - 1),
            show m + i - 1 = m + (i - 1) by omega]
      have hchi : childHi hi (K.drop m) i = childHi hi K (m + i) := by
        unfold childHi
        by_cases h0 : i < K.length - m
        · rw [if_pos (by omega), if_pos (by omega), hgdK i]
        · rw [if_neg (by omega), if_neg (by omega)]
      rw [hget2, hclo, hchi]
      exact hkids (m + i) hikd
  rw [nodeGet] at hget
  refine ⟨hwfl, hwfr, hkD (m - 1) hm1lt, ?_, ?_⟩
  · intro hkk
    have hidxle : internalSearch K k ≤ m - 1 := by
      by_contra hcon
      push_neg at hcon
      have h1 := internalSearch_before K k (m - 1) hcon hm1lt
      omega
    have hsearch : internalSearch (K.take (m - 1)) k = internalSearch K k := by
      refine internalSearch_eq _ k (internalSearch K k) (by omega) ?_ ?_
      · intro i hi
        rw [hgtK i (by omega)]
        exact internalSearch_before K k i hi (by omega)
      · intro h2
        rw [htlK] at h2
        rw [hgtK _ (by omega)]
        exact internalSearch_found K k (by omega)
    rw [nodeGet]
    unfold selectChild
    rw [hsearch, hgtKD _ (by omega)]
    unfold selectChild at hget
    exact hget
  · intro hkk
    have hidxge : m ≤ internalSearch K k := by
      by_contra hcon
      push_neg at hcon
      have h1 := internalSearch_found K k (by omega)
      rcases Nat.lt_or_ge (internalSearch K k) (m - 1) with h2 | h2
      · have h3 := pairwise_getD_lt K hsort (internalSearch K k) (m - 1) h2 hm1lt
        omega
      · have h3 : internalSearch K k = m - 1 := by omega
        rw [h3] at h1
        omega
    have hsearch : internalSearch (K.drop m) k = internalSearch K k - m := by
      refine internalSearch_eq _ k (internalSearch K k - m) (by omega) ?_ ?_
      · intro i hi
        rw [hgdK i]
        exact internalSearch_before K k (m + i) (by omega) (by omega)
      · intro h2
        rw [hdlK] at h2
        rw [hgdK _, show m + (internalSearch K k - m) = internalSearch K k by omega]
        exact internalSearch_found K k (by omega)
    rw [nodeGet]
    unfold selectChild
    rw [hsearch, hgdKD _, show m + (internalSearch K k - m) = internalSearch K k by omega]
    unfold selectChild at hget
    exact hget

/-! ### Whole-tree insert correctness -/

/-- Master induction: inserting an absent key into a well-formed subtree
never errors; the result (possibly a split pair around a promoted key)
stays well-formed within the bounds and resolves the inserted key. -/
theorem ins_ok : ∀ (n : Nat) (t : BTree), sizeOf t ≤ n →
    ∀ (lo hi : Option Int) (k v : Int), WF lo t hi → inb lo hi k → KeyAbsentT k t →
    (∀ e t2, btInsertNode t k v false ≠ .err e t2) ∧
    (∀ t2, btInsertNode t k v false = .ok t2 → WF lo t2 hi ∧ nodeGet t2 k = some v) ∧
    (∀ l key r, btInsertNode t k v false = .split l key r →
      WF lo l (some key) ∧ WF (some key) r hi ∧ inbS lo hi key ∧
      (k < key → nodeGet l k = some v) ∧ (key ≤ k → nodeGet r k = some v)) := by
  intro n
  induction n with
  | zero =>
    intro t ht
    cases t <;> simp_arith at ht
  | succ n ih =>
    intro t ht lo hi k v hwf hk habs
    cases t with
    | leaf es =>
      have habs2 := habs
      rw [KeyAbsentT] at habs2
      have h := btLeafInsert_ok es k v lo hi hwf hk habs2
      refine ⟨?_, ?_, ?_⟩
      · intro e t2 hcontra
        rw [btInsertNode] at hcontra
        exact h.1 e t2 hcontra
      · intro t2 hok
        rw [btInsertNode] at hok
        exact h.2.1 t2 hok
      · intro l key r hsp
        rw [btInsertNode] at hsp
        exact h.2.2 l key r hsp
    | node keys kids =>
      have hwf2 := hwf
      rw [WF] at hwf2
      obtain ⟨hlen, hsort, hbS, hkids⟩ := hwf2
      have hile : internalSearch keys k ≤ keys.length := internalSearch_le keys k
      have hik : internalSearch keys k < kids.length := by omega
      have hsel : selectChild keys kids k = kids.get ⟨internalSearch keys k, hik⟩ := by
        unfold selectChild
        rw [List.getD_eq_getElem _ _ hik, List.get_eq_getElem]
      have hszn : sizeOf (BTree.node keys kids) = 1 + sizeOf keys + sizeOf kids := by simp
      have hszsel : sizeOf (selectChild keys kids k) ≤ n := by
        have h1 := selectChild_sizeOf_lt keys kids k
        omega
      have hwfsel : WF (childLo lo keys (internalSearch keys k)) (selectChild keys kids k)
          (childHi hi keys (internalSearch keys k)) := by
        rw [hsel]
        exact hkids _ hik
      have hbk := search_child_bounds lo hi keys k hk
      have habs2 := habs
      rw [KeyAbsentT] at habs2
      have habssel : KeyAbsentT k (selectChild keys kids k) := by
        rw [hsel]
        exact habs2 _ hik
      have hchild := ih (selectChild keys kids k) hszsel
        (childLo lo keys (internalSearch keys k)) (childHi hi keys (internalSearch keys k))
        k v hwfsel hbk habssel
      cases hres : btInsertNode (selectChild keys kids k) k v false with
      | err e c => exact absurd hres (hchild.1 e c)
      | ok c =>
        obtain ⟨hcwf, hcget⟩ := hchild.2.1 c hres
        have heq : btInsertNode (.node keys kids) k v false =
            .ok (.node keys (kids.set (internalSearch keys k) c)) := by
          rw [btInsertNode, hres]
        refine ⟨?_, ?_, ?_⟩
        · intro e t2 h
          rw [heq] at h
          cases h
        · intro t2 h
          rw [heq] at h
          injection h with h1
          subst h1
          refine ⟨WF_set_child lo hi keys kids _ c hwf hik hcwf, ?_⟩
          rw [nodeGet]
          unfold selectChild
          rw [getD_set_self kids _ c _ hik]
          exact hcget
        · intro l key r h
          rw [heq] at h
          cases h
      | split l key r =>
        obtain ⟨hwl, hwr, hkeyb, hgl, hgr⟩ := hchild.2.2 l key r hres
        obtain ⟨hposeq, hwfn1, hgetn1⟩ := node_insert_split_assemble lo hi keys kids k v key
          l r hlen hsort hbS hkids hwl hwr hkeyb hgl hgr
        by_cases hover : (insertAt (internalSearch keys k) key keys).length >
            KEYS_PER_INTERNAL_NODE
        · have heq : btInsertNode (.node keys kids) k v false =
              .split
                (.node ((insertAt (internalSearch keys k) key keys).take
                  (((insertAt (internalSearch keys k) key keys).length - 1) / 2 - 1))
                  ((insertAt (internalSearch keys k + 1) r
                    (kids.set (internalSearch keys k) l)).take
                    (((insertAt (internalSearch keys k) key keys).length - 1) / 2)))
                ((insertAt (internalSearch keys k) key keys).getD
                  (((insertAt (internalSearch keys k) key keys).length - 1) / 2 - 1) 0)
                (.node ((insertAt (internalSearch keys k) key keys).drop
                  (((insertAt (internalSearch keys k) key keys).length - 1) / 2))
                  ((insertAt (internalSearch keys k + 1) r
                    (kids.set (internalSearch keys k) l)).drop
                    (((insertAt (internalSearch keys k) key keys).length - 1) / 2))) := by
            rw [btInsertNode, hres]
            dsimp only
            rw [hposeq, if_pos hover]
          refine ⟨?_, ?_, ?_⟩
          · intro e t2 h
            rw [heq] at h
            cases h
          · intro t2 h
            rw [heq] at h
            cases h
          · intro l2 key2 r2 h
            rw [heq] at h
            injection h with h1 h2 h3
            subst h1
            subst h2
            subst h3
            exact node_overflow_split lo hi (insertAt (internalSearch keys k) key keys)
              (insertAt (internalSearch keys k + 1) r (kids.set (internalSearch keys k) l))
              k v hwfn1 hgetn1 hover
        · have heq : btInsertNode (.node keys kids) k v false =
              .ok (.node (insertAt (internalSearch keys k) key keys)
                (insertAt (internalSearch keys k + 1) r
                  (kids.set (internalSearch keys k) l))) := by
            rw [btInsertNode, hres]
            dsimp only
            rw [hposeq, if_neg hover]
          refine ⟨?_, ?_, ?_⟩
          · intro e t2 h
            rw [heq] at h
            cases h
          · intro t2 h
            rw [heq] at h
            injection h with h1
            subst h1
            exact ⟨hwfn1, hgetn1⟩
          · intro l2 key2 r2 h
            rw [heq] at h
            cases h

/-- C7: for either index whose stored key set does not contain `k`,
`Insert(k, v)` followed by `Find(k)` succeeds and returns the entry
`(k, v)`.  For the B+ tree this holds for every well-formed tree not
containing `k`; for the hash index, for every reachable state whose buckets
do not hold `k`, every hash function, and every split fuel for which the
insert returns. -/
theorem insert_find_roundtrip :
    (∀ (t : BTree) (k v : Int), WF none t none → KeyAbsentT k t →
      (btInsert t k v false).1 = none ∧
      btFind (btInsert t k v false).2 k = some (k, v)) ∧
    (∀ (A : Int → Nat) (fuel : Nat) (s s' : HashIndexState) (k v : Int),
      HashReachable A s →
      (∀ i, i < s.buckets.length → ∀ e ∈ (s.slotBucket i).entries, e.1 ≠ k) →
      HashTableInsert A fuel s k v = some s' →
      HashTableFind A s' k = some (k, v)) := by
  constructor
  · intro t k v hwf habs
    have h := ins_ok (sizeOf t) t le_rfl none none k v hwf ⟨trivial, trivial⟩ habs
    cases hres : btInsertNode t k v false with
    | err e c => exact absurd hres (h.1 e c)
    | ok t2 =>
      obtain ⟨hwf2, hget2⟩ := h.2.1 t2 hres
      have hbi : btInsert t k v false = (none, t2) := by
        unfold btInsert
        rw [hres]
      refine ⟨by rw [hbi], ?_⟩
      rw [hbi]
      show btFind t2 k = some (k, v)
      unfold btFind
      rw [hget2]
      rfl
    | split l key r =>
      obtain ⟨hwl, hwr, hkeyb, hgl, hgr⟩ := h.2.2 l key r hres
      have hbi : btInsert t k v false = (none, .node [key] [l, r]) := by
        unfold btInsert
        rw [hres]
      refine ⟨by rw [hbi], ?_⟩
      rw [hbi]
      show btFind (BTree.node [key] [l, r]) k = some (k, v)
      have hg : nodeGet (BTree.node [key] [l, r]) k = some v := by
        rw [nodeGet]
        unfold selectChild
        rcases lt_or_le k key with hkk | hkk
        · have hsi : internalSearch [key] k = 0 := by
            refine internalSearch_eq [key] k 0 (by simp) (fun i hi => absurd hi (by omega)) ?_
            intro h2
            exact hkk
          rw [hsi]
          exact hgl hkk
        · have hsi : internalSearch [key] k = 1 := by
            refine internalSearch_eq [key] k 1 (by simp) ?_ (by intro h2; simp at h2)
            intro i hi
            have h0 : i = 0 := by omega
            rw [h0]
            exact hkk
          rw [hsi]
          exact hgr hkk
      unfold btFind
      rw [hg]
      rfl
  · intro A fuel s s' k v hreach habs hins
    have hinv := reachable_HInv A s hreach
    exact (insert_main A fuel s k v s' hinv hins).2 habs

/-- The hash state expected after inserting `(6, 5)` into the fresh table
under the absolute-value hash model. -/
def c7hstate : HashIndexState :=
  ⟨2, [0, 1, 2, 3], [⟨2, []⟩, ⟨2, []⟩, ⟨2, [(6, 5)]⟩, ⟨2, []⟩]⟩

/-- Witness for C7: the B+ tree leaf `{(1, 10)}` absorbs `(2, 5)` and finds
it; the fresh hash table (under the absolute-value hash model) absorbs
`(6, 5)` into slot 2 and finds it. -/
theorem insert_find_roundtrip_witness :
    (WF none (.leaf [(1, 10)]) none ∧ KeyAbsentT 2 (.leaf [(1, 10)]) ∧
      (btInsert (.leaf [(1, 10)]) 2 5 false).1 = none ∧
      btFind (btInsert (.leaf [(1, 10)]) 2 5 false).2 2 = some (2, 5)) ∧
    (HashReachable Am NewHashTable ∧
      (∀ i, i < NewHashTable.buckets.length →
        ∀ e ∈ (NewHashTable.slotBucket i).entries, e.1 ≠ 6) ∧
      HashTableInsert Am 1 NewHashTable 6 5 = some c7hstate ∧
      HashTableFind Am c7hstate 6 = some (6, 5)) := by
  have hwf : WF none (BTree.leaf [(1, 10)]) none := by
    rw [WF]
    exact ⟨by decide, fun e he => ⟨trivial, trivial⟩⟩
  have habs : KeyAbsentT 2 (BTree.leaf [(1, 10)]) := by
    rw [KeyAbsentT]
    decide
  have hb := insert_find_roundtrip.1 (.leaf [(1, 10)]) 2 5 hwf habs
  have hh := insert_find_roundtrip.2 Am 1 NewHashTable c7hstate 6 5 HashReachable.init
    (by decide) (by decide)
  exact ⟨⟨hwf, habs, hb.1, hb.2⟩, HashReachable.init, by decide, by decide, hh⟩

end BumbleBase
